import Mathlib

/-!
Verification of the matrix-multiplication benchmark repository
(Stage 1 `mm_baseline.py`, Stage 2 `mm_opt.py`, Stage 3 `mm_opt_par.py`).

Python floats are modelled by exact rationals (the claims about kernel
agreement are stated over exact arithmetic), Python lists by Lean lists,
and fallible code (index errors, division by zero, `range` with step 0)
by `Option`-valued functions.
-/

/-- Dense matrix: a list of rows of rationals (the Python list-of-lists). -/
abbrev Mat := List (List ℚ)

namespace MM

/-- Module-level constant `BASE_SEED = 403086` of mm_baseline.py and mm_opt.py. -/
def BASE_SEED : Nat := 403086

/-- Module-level constant `SEED = 403086` of mm_opt_par.py. -/
def SEED : Nat := 403086

/-! ### Model of Python's `random.Random`

The generators call into the `random` stdlib, which is external to the
repository.  The claims depend only on its contract: a `random.Random(seed)`
object is a deterministic stream fixed by `seed`, `rnd.random()` yields a
value in `[0,1)` advancing the stream, and `rnd.sample(range(n), k)` yields
`k` distinct elements of `range(n)`.  We model the stream state as a natural
number advanced by a linear congruential step. -/

/-- One state-transition step of the modelled pseudo-random generator. -/
def rngNext (s : Nat) : Nat := (s * 1103515245 + 12345) % 2147483648

/-- Model of `rnd.random()`: a rational in `[0,1)` plus the advanced state. -/
def randFloat (s : Nat) : ℚ × Nat :=
  let s' := rngNext s
  ((s' : ℚ) / 2147483648, s')

/-- `c` successive `rnd.random()` draws. -/
def randFloats : Nat → Nat → List ℚ × Nat
  | 0, s => ([], s)
  | c + 1, s =>
    let (x, s') := randFloat s
    let (xs, s'') := randFloats c s'
    (x :: xs, s'')

/-- Model of `rnd.sample(range(n), k)`: `k` distinct elements of `range n`
chosen from the generator state (the stdlib's selection algorithm itself is
external; only its contract matters), advancing the state. -/
def pySample (n k s : Nat) : List Nat × Nat :=
  let s' := rngNext s
  (((List.range n).rotate s').take k, s')

/-- The row block of `r` rows, each of `n` fresh `rnd.random()` values, drawn
from state `s` (the list comprehension `[[rnd.random() for _ in range(n)] for
__ in range(n)]`). -/
def genRows : Nat → Nat → Nat → Mat × Nat
  | 0, _, s => ([], s)
  | r + 1, n, s =>
    let (row, s') := randFloats n s
    let (rows, s'') := genRows r n s'
    (row :: rows, s'')

/-- Python `gen_dense(n, seed)` (mm_opt.py lines 6-8): a fresh
`random.Random(seed)` fills an n-by-n matrix row-major.  `range(n)` of a
non-positive `n` is empty, hence `Int.toNat`. -/
def gen_dense (n : Int) (seed : Nat) : Mat := (genRows n.toNat n.toNat seed).1

/-- Python `gen_matrix(n, seed)` (mm_baseline.py lines 13-15); the code is
identical to `gen_dense` of mm_opt.py. -/
def gen_matrix (n : Int) (seed : Nat) : Mat := (genRows n.toNat n.toNat seed).1

/-- Python `generate_dense(n)` (mm_opt_par.py lines 8-10): note that it takes
no seed parameter and always seeds with the module constant `SEED`. -/
def generate_dense (n : Int) : Mat := (genRows n.toNat n.toNat SEED).1

/-! ### The sparse CSR generator (mm_opt.py lines 10-28) -/

/-- Python `nnz_target = int(n*n*density)` (mm_opt.py line 15): `int()`
truncation of the exact product; negative targets (negative density) truncate
to `0` through `Int.toNat` exactly as the Python loop then produces no
entries. -/
def nnz_target (n : Int) (density : ℚ) : Nat := (⌊(n : ℚ) * (n : ℚ) * density⌋).toNat

/-- Python `per_row = max(0, nnz_target // n)` (mm_opt.py line 17).  For
`n > 0` this is plain truncating division; `Nat` division already yields `0`
in every case where the Python `max(0, ·)` clamps. -/
def per_row (n : Int) (density : ℚ) : Nat := nnz_target n density / n.toNat

/-- Python `leftover = nnz_target - per_row*n` (mm_opt.py line 18). -/
def leftover (n : Int) (density : ℚ) : Nat :=
  nnz_target n density - per_row n density * n.toNat

/-- Python `k = per_row + (1 if i < leftover else 0)` (mm_opt.py line 20). -/
def rowK (n : Int) (density : ℚ) (i : Nat) : Nat :=
  per_row n density + (if i < leftover n density then 1 else 0)

/-- Python `cols = rnd.sample(range(n), k) if k <= n else list(range(n))`
followed by `cols.sort()` (mm_opt.py lines 22-23), together with the advanced
generator state (the `else` branch draws nothing from the generator). -/
def rowColsState (n : Int) (density : ℚ) (i s : Nat) : List Nat × Nat :=
  let cs := if rowK n density i ≤ n.toNat
    then pySample n.toNat (rowK n density i) s
    else (List.range n.toNat, s)
  (List.insertionSort (· ≤ ·) cs.1, cs.2)

/-- Body of the row loop of `gen_sparse_csr` (mm_opt.py lines 19-27): state is
`((row_ptr, col_idx, vals), rng-state)`; for each chosen column a fresh
`rnd.random()` value is appended (mm_opt.py lines 24-26), then
`row_ptr.append(len(col_idx))` (line 27). -/
def gen_sparse_row (n : Int) (density : ℚ)
    (st : (List Nat × List Nat × List ℚ) × Nat) (i : Nat) :
    (List Nat × List Nat × List ℚ) × Nat :=
  let rp := st.1.1
  let ci := st.1.2.1
  let vs := st.1.2.2
  let cols := (rowColsState n density i st.2).1
  let new := randFloats cols.length (rowColsState n density i st.2).2
  ((rp ++ [ci.length + cols.length], ci ++ cols, vs ++ new.1), new.2)

/-- Python `gen_sparse_csr(n, density, seed)` (mm_opt.py lines 10-28).
`n = 0` raises ZeroDivisionError at `nnz_target // n`, modelled as `none`;
for `n < 0` the Python row loop is empty and `max(0, nnz_target // n) = 0`,
matching the `Int.toNat` clamps. -/
def gen_sparse_csr (n : Int) (density : ℚ) (seed : Nat) :
    Option (List Nat × List Nat × List ℚ) :=
  if n = 0 then none
  else some ((List.range n.toNat).foldl (gen_sparse_row n density)
    (([0], [], []), seed)).1

/-! ### Dense kernels (mm_opt.py lines 30-73, mm_baseline.py lines 17-28)

The Python locals `Ai`, `Ci`, `aik`, `Bk`, `btj` are pure aliases and are
inlined.  In-place update of row `Ci` over `for j in range(n)` is rendered as
rebuilding the full row (a `map` over `range n`); updates over a sub-range of
columns (the blocked kernel) are rendered with `List.set`. -/

/-- Python `matmul_basic(A, B)` (mm_opt.py lines 30-40; the identical function
also appears in mm_baseline.py lines 17-28): `i, k, j` loop order, row `i`
accumulated over `k` starting from `[0.0]*n`. -/
def matmul_basic (A B : Mat) : Mat :=
  let n := A.length
  (List.range n).map (fun i =>
    (List.range n).foldl (fun Ci k =>
      (List.range n).map (fun j =>
        Ci.getD j 0 + (A.getD i []).getD k 0 * (B.getD k []).getD j 0))
      (List.replicate n 0))

/-- Python `matmul_transposed(A, B)` (mm_opt.py lines 42-55): pretranspose `B`
(`BT[i][j] = B[j][i]`), then each output entry is the dot product of row `i`
of `A` with row `j` of `BT`, accumulated into a scalar `s`. -/
def matmul_transposed (A B : Mat) : Mat :=
  let n := A.length
  let BT := (List.range n).map (fun i =>
    (List.range n).map (fun j => (B.getD j []).getD i 0))
  (List.range n).map (fun i =>
    (List.range n).map (fun j =>
      (List.range n).foldl (fun s k =>
        s + (A.getD i []).getD k 0 * (BT.getD j []).getD k 0) 0))

/-- Python `range(s, n, step)` for a positive step (the tile loops of
`matmul_blocked`). -/
def rangeStep (s n step : Nat) : List Nat :=
  if h : 0 < step ∧ s < n then s :: rangeStep (s + step) n step else []
  termination_by n - s
  decreasing_by omega

/-- Body of one tile triple `(ii, kk, jj)` of `matmul_blocked` (mm_opt.py
lines 64-72): clamped bounds `i_max/k_max/j_max = min (· + BS) n` and the
naive `i, k, j` accumulation restricted to the tile. -/
def tileBody (A B : Mat) (BS n ii kk jj : Nat) (C : Mat) : Mat :=
  (List.range' ii (min (ii + BS) n - ii)).foldl (fun C i =>
    C.set i (
      (List.range' kk (min (kk + BS) n - kk)).foldl (fun Ci k =>
        (List.range' jj (min (jj + BS) n - jj)).foldl (fun Ci j =>
          Ci.set j (Ci.getD j 0 + (A.getD i []).getD k 0 * (B.getD k []).getD j 0))
          Ci)
        (C.getD i []))) C

/-- Python `matmul_blocked(A, B, BS)` (mm_opt.py lines 57-73).  `BS = 0` makes
`range(0, n, BS)` raise ValueError (`none`); a negative `BS` makes
`range(0, n, BS)` empty, so the zero matrix is returned. -/
def matmul_blocked (A B : Mat) (BS : Int) : Option Mat :=
  if BS = 0 then none
  else
    let n := A.length
    let tiles := if BS < 0 then [] else rangeStep 0 n BS.toNat
    some (tiles.foldl (fun C ii =>
      tiles.foldl (fun C kk =>
        tiles.foldl (fun C jj => tileBody A B BS.toNat n ii kk jj C) C) C)
      ((List.range n).map (fun _ => List.replicate n 0)))

/-- Python `spmm_csr_dense(row_ptr, col_idx, vals, B)` (mm_opt.py lines
75-89).  Every Python subscript that can raise IndexError is modelled with a
checked lookup, so an out-of-range access makes the whole call `none`; in
particular `n = len(B[0])` is read before anything else.  `m =
len(row_ptr)-1` truncates at zero exactly as Python's `range` does on a
negative length. -/
def spmm_csr_dense (row_ptr col_idx : List Nat) (vals : List ℚ) (B : Mat) :
    Option Mat := do
  let B0 ← B[0]?
  let n := B0.length
  let m := row_ptr.length - 1
  (List.range m).mapM (fun i => do
    let s ← row_ptr[i]?
    let e ← row_ptr[i + 1]?
    (List.range' s (e - s)).foldlM (fun Ci p => do
      let k ← col_idx[p]?
      let aik ← vals[p]?
      let Bk ← B[k]?
      (List.range n).mapM (fun j => do
        let bkj ← Bk[j]?
        pure (Ci.getD j 0 + aik * bkj)))
      (List.replicate n (0 : ℚ)))

/-! ### The parallel kernel (mm_opt_par.py lines 12-41) -/

/-- Python `worker_chunk(args)` (mm_opt_par.py lines 12-24): naive `i, k, j`
accumulation of a contiguous row chunk of `A` against full `B`, with
`n = len(B)`; returns the chunk rows tagged with their start offset. -/
def worker_chunk (args : Mat × Mat × Nat) : Nat × Mat :=
  let A_chunk := args.1
  let B := args.2.1
  let start_i := args.2.2
  let n := B.length
  (start_i, A_chunk.map (fun Ai =>
    (List.range n).foldl (fun Ci k =>
      (List.range n).map (fun j =>
        Ci.getD j 0 + Ai.getD k 0 * (B.getD k []).getD j 0))
      (List.replicate n 0)))

/-- Python `i0 = t*chunk` with `chunk = n // p` (mm_opt_par.py line 31). -/
def task_i0 (n p t : Nat) : Nat := t * (n / p)

/-- Python `i1 = n if t==p-1 else (t+1)*chunk` (mm_opt_par.py line 32). -/
def task_i1 (n p t : Nat) : Nat := if t = p - 1 then n else (t + 1) * (n / p)

/-- The task list built by `parallel_mul` (mm_opt_par.py lines 28-33): worker
`t` receives the slice `A[i0:i1]`, all of `B`, and the offset `i0`. -/
def parallel_tasks (A B : Mat) (p : Nat) : List (Mat × Mat × Nat) :=
  let n := A.length
  (List.range p).map (fun t =>
    ((A.drop (task_i0 n p t)).take (task_i1 n p t - task_i0 n p t), B,
      task_i0 n p t))

/-- Python `parallel_mul(A, B, p)` (mm_opt_par.py lines 26-41).  `p = 0`
raises ZeroDivisionError at `n // p` and a negative `p` raises ValueError in
`ProcessPoolExecutor`, both modelled `none`.  The merge loop writes each
returned chunk row at `C[start_i + off]`. -/
def parallel_mul (A B : Mat) (p : Int) : Option Mat :=
  if p ≤ 0 then none
  else
    let n := A.length
    some ((parallel_tasks A B p.toNat).foldl (fun C task =>
      let r := worker_chunk task
      r.2.enum.foldl (fun C ow => C.set (r.1 + ow.1) ow.2) C)
      ((List.range n).map (fun _ => List.replicate n 0)))

/-! ### Benchmark-driver models

Timing, CSV writing and memory sampling are external I/O; the embedded parts
are the seed selections, the generated operands, and the derived-metric
arithmetic of the Stage-3 driver. -/

/-- The product computed by one Stage-2 `run_once(n, algo, BS, density)` call
(mm_opt.py lines 96-111), stripped of the timing around the kernel call:
the generator calls with their literal seed arguments, then the selected
kernel. -/
def run_once_product (n : Int) (algo : String) (BS : Int) (density : ℚ) :
    Option Mat :=
  if algo = "sparse" then
    match gen_sparse_csr n density BASE_SEED with
    | none => none
    | some rcv => spmm_csr_dense rcv.1 rcv.2.1 rcv.2.2 (gen_dense n (BASE_SEED + 1))
  else if algo = "blocked" then
    matmul_blocked (gen_dense n BASE_SEED) (gen_dense n (BASE_SEED + 1)) BS
  else if algo = "transposed" then
    some (matmul_transposed (gen_dense n BASE_SEED) (gen_dense n (BASE_SEED + 1)))
  else
    some (matmul_basic (gen_dense n BASE_SEED) (gen_dense n (BASE_SEED + 1)))

/-- The `(A-seed, B-seed)` pair used by a Stage-2 `run_once` call for the
dense algorithms (mm_opt.py lines 103, 106, 109): always
`(BASE_SEED, BASE_SEED+1)`. -/
def run_once_seeds : Nat × Nat := (BASE_SEED, BASE_SEED + 1)

/-- The seed pair used in repetition `r` of a size in the Stage-2 driver:
mm_opt.py line 129 calls `run_once` with arguments that do not mention the
repetition index, so the pair is independent of `r`. -/
def stage2_rep_seeds (_r : Nat) : Nat × Nat := run_once_seeds

/-- The seed pair used in repetition `r` of `bench` in the Stage-1 driver
(mm_baseline.py lines 37-38): `BASE_SEED + r` and `BASE_SEED + 1 + r`. -/
def bench_rep_seeds (r : Nat) : Nat × Nat := (BASE_SEED + r, BASE_SEED + 1 + r)

/-- The seed pair used in repetition `r` of the Stage-3 driver
(mm_opt_par.py lines 60-61): both `generate_dense(n)` calls seed with the
module constant `SEED`, independent of `r`. -/
def stage3_rep_seeds (_r : Nat) : Nat × Nat := (SEED, SEED)

/-- The operand pair `(A, B)` generated for one repetition by the Stage-3
driver (mm_opt_par.py lines 60-61). -/
def stage3_operands (n : Int) : Mat × Mat := (generate_dense n, generate_dense n)

/-- The pair of matrices generated in repetition `r` of the Stage-1 `bench`
(mm_baseline.py lines 37-38). -/
def bench_rep_operands (n : Int) (r : Nat) : Mat × Mat :=
  (gen_matrix n (BASE_SEED + r), gen_matrix n (BASE_SEED + 1 + r))

/-- One `gen_dense(n, seed)` call in its process context: `g` is the
module-global `random` state (set once by `random.seed(BASE_SEED)` at
startup).  The function builds a fresh local `random.Random(seed)` and never
reads or advances the global state. -/
def gen_dense_call (g : Nat) (n : Int) (seed : Nat) : Mat × Nat :=
  (gen_dense n seed, g)

/-- The baseline-mapping update and the `speedup`/`efficiency` computation of
one iteration of the Stage-3 driver loop (mm_opt_par.py lines 68-78): given
the worker count, the current `T1` mapping, the size `n` and the elapsed time
`dt` of this repetition, returns the updated mapping, the speedup and the
efficiency. -/
def record_step (threads : Int) (T1 : Nat → Option ℚ) (n : Nat) (dt : ℚ) :
    (Nat → Option ℚ) × ℚ × ℚ :=
  let T1' := if threads = 1 then (fun m => if m = n then some dt else T1 m) else T1
  let speed : ℚ :=
    if threads = 1 then 1
    else match T1' n with
      | some base => base / dt
      | none => 1
  let eff := speed / (threads : ℚ)
  (T1', speed, eff)

end MM

namespace MM

/-! ### List access utilities -/

theorem getD_map_range {α : Type} (f : Nat → α) (d : α) {n j : Nat} (hj : j < n) :
    ((List.range n).map f).getD j d = f j := by
  simp [List.getD_eq_getElem?_getD, List.getElem?_map, List.getElem?_range hj]

theorem getD_replicate_lt {α : Type} (a d : α) {n j : Nat} (hj : j < n) :
    (List.replicate n a).getD j d = a := by
  simp [List.getD_eq_getElem?_getD, List.getElem?_replicate, hj]

theorem getD_set_self {α : Type} (l : List α) (v d : α) {j : Nat} (hj : j < l.length) :
    (l.set j v).getD j d = v := by
  simp [List.getD_eq_getElem?_getD, List.getElem?_set, hj]

theorem getD_set_ne {α : Type} (l : List α) (v d : α) {i j : Nat} (hij : i ≠ j) :
    (l.set i v).getD j d = l.getD j d := by
  simp [List.getD_eq_getElem?_getD, List.getElem?_set, hij]

/-! ### The map-style accumulation row fold shared by `matmul_basic` and
`worker_chunk` -/

theorem mapfold_length (F : Nat → Nat → ℚ) (n : Nat) (L : List Nat) :
    ∀ Ci : List ℚ,
    (L.foldl (fun Ci k => (List.range n).map (fun j => Ci.getD j 0 + F k j)) Ci).length
      = if L = [] then Ci.length else n := by
  induction L with
  | nil => intro Ci; simp
  | cons a L ih =>
    intro Ci
    simp only [List.foldl_cons]
    rw [ih]
    by_cases h : L = [] <;> simp [h]

theorem mapfold_getD (F : Nat → Nat → ℚ) (n : Nat) (L : List Nat) {j : Nat} (hj : j < n) :
    ∀ Ci : List ℚ,
    (L.foldl (fun Ci k => (List.range n).map (fun j => Ci.getD j 0 + F k j)) Ci).getD j 0
      = Ci.getD j 0 + (L.map (fun k => F k j)).sum := by
  induction L with
  | nil => intro Ci; simp
  | cons a L ih =>
    intro Ci
    simp only [List.foldl_cons, List.map_cons, List.sum_cons]
    rw [ih, getD_map_range _ _ hj]
    ring

theorem foldl_add_sum (g : Nat → ℚ) (L : List Nat) : ∀ s0 : ℚ,
    L.foldl (fun s k => s + g k) s0 = s0 + (L.map g).sum := by
  induction L with
  | nil => intro s0; simp
  | cons a L ih =>
    intro s0
    simp only [List.foldl_cons, List.map_cons, List.sum_cons]
    rw [ih]
    ring

/-! ### Entry-level characterisation of the dense kernels -/

/-- The mathematical inner product `sum over k < n of A[i][k] * B[k][j]`. -/
def dotSum (A B : Mat) (n i j : Nat) : ℚ :=
  ((List.range n).map (fun k => (A.getD i []).getD k 0 * (B.getD k []).getD j 0)).sum

theorem matmul_basic_length (A B : Mat) : (matmul_basic A B).length = A.length := by
  simp [matmul_basic]

theorem matmul_basic_row_length (A B : Mat) {i : Nat} (hi : i < A.length) :
    ((matmul_basic A B).getD i []).length = A.length := by
  unfold matmul_basic
  rw [getD_map_range _ _ hi, mapfold_length]
  cases h : A.length with
  | zero => omega
  | succ m => simp [List.range_succ]

theorem matmul_basic_getD (A B : Mat) {i j : Nat} (hi : i < A.length)
    (hj : j < A.length) :
    ((matmul_basic A B).getD i []).getD j 0 = dotSum A B A.length i j := by
  unfold matmul_basic
  rw [getD_map_range _ _ hi, mapfold_getD _ _ _ hj, getD_replicate_lt _ _ hj]
  simp [dotSum]

theorem matmul_transposed_length (A B : Mat) :
    (matmul_transposed A B).length = A.length := by
  simp [matmul_transposed]

theorem matmul_transposed_row_length (A B : Mat) {i : Nat} (hi : i < A.length) :
    ((matmul_transposed A B).getD i []).length = A.length := by
  unfold matmul_transposed
  rw [getD_map_range _ _ hi]
  simp

theorem matmul_transposed_getD (A B : Mat) {i j : Nat} (hi : i < A.length)
    (hj : j < A.length) :
    ((matmul_transposed A B).getD i []).getD j 0 = dotSum A B A.length i j := by
  unfold matmul_transposed
  rw [getD_map_range _ _ hi, getD_map_range _ _ hj, foldl_add_sum]
  unfold dotSum
  rw [zero_add]
  congr 1
  apply List.map_congr_left
  intro k hk
  rw [List.mem_range] at hk
  rw [getD_map_range _ _ hj, getD_map_range _ _ hk]

theorem matmul_transposed_eq_basic (A B : Mat) :
    matmul_transposed A B = matmul_basic A B := by
  apply List.ext_getElem (by rw [matmul_transposed_length, matmul_basic_length])
  intro i h1 h2
  have hi : i < A.length := by rwa [matmul_transposed_length] at h1
  rw [← List.getD_eq_getElem _ ([] : List ℚ) h1, ← List.getD_eq_getElem _ ([] : List ℚ) h2]
  apply List.ext_getElem
    (by rw [matmul_transposed_row_length _ _ hi, matmul_basic_row_length _ _ hi])
  intro j hj1 hj2
  have hj : j < A.length := by rwa [matmul_transposed_row_length _ _ hi] at hj1
  rw [← List.getD_eq_getElem _ (0 : ℚ) hj1, ← List.getD_eq_getElem _ (0 : ℚ) hj2,
    matmul_transposed_getD _ _ hi hj, matmul_basic_getD _ _ hi hj]

end MM

namespace MM

/-! ### Set-style folds (proof layer for the blocked kernel) -/

/-- Shape invariant maintained by the blocked kernel: an n-by-n matrix. -/
def goodShape (n : Nat) (C : Mat) : Prop :=
  C.length = n ∧ ∀ i < n, (C.getD i []).length = n

theorem setfold_length (g : Nat → ℚ) :
    ∀ (L : List Nat) (Ci : List ℚ),
    (L.foldl (fun Ci j => Ci.set j (Ci.getD j 0 + g j)) Ci).length = Ci.length := by
  intro L
  induction L with
  | nil => intro Ci; rfl
  | cons a L ih =>
    intro Ci
    simp only [List.foldl_cons]
    rw [ih]
    simp

theorem setfold_getD_not_mem (g : Nat → ℚ) (d : ℚ) {j : Nat} :
    ∀ (L : List Nat) (Ci : List ℚ), j ∉ L →
    (L.foldl (fun Ci j => Ci.set j (Ci.getD j 0 + g j)) Ci).getD j d = Ci.getD j d := by
  intro L
  induction L with
  | nil => intro Ci _; rfl
  | cons a L ih =>
    intro Ci hj
    simp only [List.mem_cons, not_or] at hj
    simp only [List.foldl_cons]
    rw [ih _ hj.2, getD_set_ne _ _ _ (Ne.symm hj.1)]

theorem setfold_getD_mem (g : Nat → ℚ) {j : Nat} :
    ∀ (L : List Nat) (Ci : List ℚ), L.Nodup → j ∈ L → j < Ci.length →
    (L.foldl (fun Ci j => Ci.set j (Ci.getD j 0 + g j)) Ci).getD j 0
      = Ci.getD j 0 + g j := by
  intro L
  induction L with
  | nil => intro _ _ h; cases h
  | cons a L ih =>
    intro Ci hnd hmem hlt
    rw [List.nodup_cons] at hnd
    simp only [List.foldl_cons]
    rcases List.mem_cons.mp hmem with h | h
    · subst h
      rw [setfold_getD_not_mem g 0 L _ hnd.1, getD_set_self _ _ _ hlt]
    · have hne : a ≠ j := by rintro rfl; exact hnd.1 h
      rw [ih _ hnd.2 h (by simpa using hlt), getD_set_ne _ _ _ hne]

theorem kfold_length (gk : Nat → Nat → ℚ) (J : List Nat) :
    ∀ (K : List Nat) (Ci : List ℚ),
    (K.foldl (fun Ci k =>
      J.foldl (fun Ci j => Ci.set j (Ci.getD j 0 + gk k j)) Ci) Ci).length
      = Ci.length := by
  intro K
  induction K with
  | nil => intro Ci; rfl
  | cons k K ih =>
    intro Ci
    simp only [List.foldl_cons]
    rw [ih, setfold_length]

theorem kfold_getD_not_mem (gk : Nat → Nat → ℚ) (J : List Nat) (d : ℚ) {j : Nat}
    (hj : j ∉ J) :
    ∀ (K : List Nat) (Ci : List ℚ),
    (K.foldl (fun Ci k =>
      J.foldl (fun Ci j => Ci.set j (Ci.getD j 0 + gk k j)) Ci) Ci).getD j d
      = Ci.getD j d := by
  intro K
  induction K with
  | nil => intro Ci; rfl
  | cons k K ih =>
    intro Ci
    simp only [List.foldl_cons]
    rw [ih, setfold_getD_not_mem _ _ _ _ hj]

theorem kfold_getD_mem (gk : Nat → Nat → ℚ) (J : List Nat) {j : Nat}
    (hnd : J.Nodup) (hmem : j ∈ J) :
    ∀ (K : List Nat) (Ci : List ℚ), j < Ci.length →
    (K.foldl (fun Ci k =>
      J.foldl (fun Ci j => Ci.set j (Ci.getD j 0 + gk k j)) Ci) Ci).getD j 0
      = Ci.getD j 0 + (K.map (fun k => gk k j)).sum := by
  intro K
  induction K with
  | nil => intro Ci _; simp
  | cons k K ih =>
    intro Ci hlt
    simp only [List.foldl_cons, List.map_cons, List.sum_cons]
    rw [ih _ (by rw [setfold_length]; exact hlt),
      setfold_getD_mem _ _ _ hnd hmem hlt]
    ring

theorem ifold_length (T : Nat → List ℚ → List ℚ) :
    ∀ (I : List Nat) (C : Mat),
    (I.foldl (fun C i => C.set i (T i (C.getD i []))) C).length = C.length := by
  intro I
  induction I with
  | nil => intro C; rfl
  | cons a I ih =>
    intro C
    simp only [List.foldl_cons]
    rw [ih]
    simp

theorem ifold_getD_not_mem (T : Nat → List ℚ → List ℚ) {i : Nat} :
    ∀ (I : List Nat) (C : Mat), i ∉ I →
    (I.foldl (fun C i => C.set i (T i (C.getD i []))) C).getD i [] = C.getD i [] := by
  intro I
  induction I with
  | nil => intro C _; rfl
  | cons a I ih =>
    intro C hi
    simp only [List.mem_cons, not_or] at hi
    simp only [List.foldl_cons]
    rw [ih _ hi.2, getD_set_ne _ _ _ (Ne.symm hi.1)]

theorem ifold_getD_mem (T : Nat → List ℚ → List ℚ) {i : Nat} :
    ∀ (I : List Nat) (C : Mat), I.Nodup → i ∈ I → i < C.length →
    (I.foldl (fun C i => C.set i (T i (C.getD i []))) C).getD i []
      = T i (C.getD i []) := by
  intro I
  induction I with
  | nil => intro _ _ h; cases h
  | cons a I ih =>
    intro C hnd hmem hlt
    rw [List.nodup_cons] at hnd
    simp only [List.foldl_cons]
    rcases List.mem_cons.mp hmem with h | h
    · subst h
      rw [ifold_getD_not_mem _ _ _ hnd.1, getD_set_self _ _ _ hlt]
    · have hne : a ≠ i := by rintro rfl; exact hnd.1 h
      rw [ih _ hnd.2 h (by simpa using hlt), getD_set_ne _ _ _ hne]

end MM

namespace MM

/-! ### Characterisation of `tileBody` -/

theorem tileBody_length (A B : Mat) (BS n ii kk jj : Nat) (C : Mat) :
    (tileBody A B BS n ii kk jj C).length = C.length := by
  unfold tileBody
  exact ifold_length (fun i Ci =>
    (List.range' kk (min (kk + BS) n - kk)).foldl (fun Ci k =>
      (List.range' jj (min (jj + BS) n - jj)).foldl (fun Ci j =>
        Ci.set j (Ci.getD j 0 + (A.getD i []).getD k 0 * (B.getD k []).getD j 0))
        Ci) Ci) _ C

theorem tileBody_row_not_mem (A B : Mat) (BS n ii kk jj : Nat) (C : Mat) {i : Nat}
    (hi : i ∉ List.range' ii (min (ii + BS) n - ii)) :
    (tileBody A B BS n ii kk jj C).getD i [] = C.getD i [] := by
  unfold tileBody
  exact ifold_getD_not_mem (fun i Ci =>
    (List.range' kk (min (kk + BS) n - kk)).foldl (fun Ci k =>
      (List.range' jj (min (jj + BS) n - jj)).foldl (fun Ci j =>
        Ci.set j (Ci.getD j 0 + (A.getD i []).getD k 0 * (B.getD k []).getD j 0))
        Ci) Ci) _ C hi

theorem tileBody_row_mem (A B : Mat) (BS n ii kk jj : Nat) (C : Mat) {i : Nat}
    (hi : i ∈ List.range' ii (min (ii + BS) n - ii)) (hiC : i < C.length) :
    (tileBody A B BS n ii kk jj C).getD i []
      = (List.range' kk (min (kk + BS) n - kk)).foldl (fun Ci k =>
          (List.range' jj (min (jj + BS) n - jj)).foldl (fun Ci j =>
            Ci.set j (Ci.getD j 0 + (A.getD i []).getD k 0 * (B.getD k []).getD j 0))
            Ci) (C.getD i []) := by
  unfold tileBody
  exact ifold_getD_mem (fun i Ci =>
    (List.range' kk (min (kk + BS) n - kk)).foldl (fun Ci k =>
      (List.range' jj (min (jj + BS) n - jj)).foldl (fun Ci j =>
        Ci.set j (Ci.getD j 0 + (A.getD i []).getD k 0 * (B.getD k []).getD j 0))
        Ci) Ci) _ C (List.nodup_range' _ _) hi hiC

theorem tileBody_goodShape (A B : Mat) (BS n ii kk jj : Nat) (C : Mat)
    (hC : goodShape n C) : goodShape n (tileBody A B BS n ii kk jj C) := by
  refine ⟨by rw [tileBody_length]; exact hC.1, ?_⟩
  intro i hi
  by_cases hmem : i ∈ List.range' ii (min (ii + BS) n - ii)
  · rw [tileBody_row_mem _ _ _ _ _ _ _ _ hmem (hC.1 ▸ hi), kfold_length]
    exact hC.2 i hi
  · rw [tileBody_row_not_mem _ _ _ _ _ _ _ _ hmem]
    exact hC.2 i hi

theorem tileBody_col_not_mem (A B : Mat) (BS n ii kk jj : Nat) (C : Mat)
    {j : Nat} (hj : j ∉ List.range' jj (min (jj + BS) n - jj)) (i : Nat) (d : ℚ) :
    ((tileBody A B BS n ii kk jj C).getD i []).getD j d
      = (C.getD i []).getD j d := by
  by_cases hmem : i ∈ List.range' ii (min (ii + BS) n - ii)
  · by_cases hiC : i < C.length
    · rw [tileBody_row_mem _ _ _ _ _ _ _ _ hmem hiC,
        kfold_getD_not_mem _ _ _ hj]
    · have h1 : (tileBody A B BS n ii kk jj C).getD i [] = [] :=
        List.getD_eq_default _ _ (by rw [tileBody_length]; omega)
      have h2 : C.getD i [] = ([] : List ℚ) :=
        List.getD_eq_default _ _ (by omega)
      rw [h1, h2]
  · rw [tileBody_row_not_mem _ _ _ _ _ _ _ _ hmem]

theorem tileBody_entry (A B : Mat) (BS n ii kk jj : Nat) (C : Mat)
    (hC : goodShape n C) {i j : Nat}
    (hiI : i ∈ List.range' ii (min (ii + BS) n - ii))
    (hjJ : j ∈ List.range' jj (min (jj + BS) n - jj)) (hjn : j < n) :
    ((tileBody A B BS n ii kk jj C).getD i []).getD j 0
      = (C.getD i []).getD j 0
        + ((List.range' kk (min (kk + BS) n - kk)).map
            (fun k => (A.getD i []).getD k 0 * (B.getD k []).getD j 0)).sum := by
  have hiI' := List.mem_range'_1.mp hiI
  have hmin : min (ii + BS) n ≤ n := min_le_right _ _
  have hin : i < n := by omega
  rw [tileBody_row_mem _ _ _ _ _ _ _ _ hiI (hC.1 ▸ hin)]
  rw [kfold_getD_mem _ _ (List.nodup_range' _ _) hjJ _ _ (by rw [hC.2 i hin]; exact hjn)]

/-! ### The three tile loops over `rangeStep` -/

theorem rangeStep_eq (s n st : Nat) :
    rangeStep s n st = if 0 < st ∧ s < n then s :: rangeStep (s + st) n st else [] := by
  rw [rangeStep]
  by_cases h : 0 < st ∧ s < n <;> simp [h]

theorem foldJJ_goodShape (A B : Mat) (BS n ii kk : Nat) :
    ∀ (L : List Nat) (C : Mat), goodShape n C →
    goodShape n (L.foldl (fun C jj => tileBody A B BS n ii kk jj C) C) := by
  intro L
  induction L with
  | nil => intro C h; exact h
  | cons a L ih =>
    intro C h
    exact ih _ (tileBody_goodShape _ _ _ _ _ _ _ _ h)

theorem foldJJ_row_not_mem (A B : Mat) (BS n ii kk : Nat) {i : Nat}
    (hi : i ∉ List.range' ii (min (ii + BS) n - ii)) :
    ∀ (L : List Nat) (C : Mat),
    (L.foldl (fun C jj => tileBody A B BS n ii kk jj C) C).getD i []
      = C.getD i [] := by
  intro L
  induction L with
  | nil => intro C; rfl
  | cons a L ih =>
    intro C
    simp only [List.foldl_cons]
    rw [ih, tileBody_row_not_mem _ _ _ _ _ _ _ _ hi]

theorem foldKK_goodShape (A B : Mat) (BS n ii : Nat) (tiles : List Nat) :
    ∀ (L : List Nat) (C : Mat), goodShape n C →
    goodShape n (L.foldl (fun C kk =>
      tiles.foldl (fun C jj => tileBody A B BS n ii kk jj C) C) C) := by
  intro L
  induction L with
  | nil => intro C h; exact h
  | cons a L ih =>
    intro C h
    exact ih _ (foldJJ_goodShape _ _ _ _ _ _ _ _ h)

theorem foldKK_row_not_mem (A B : Mat) (BS n ii : Nat) (tiles : List Nat) {i : Nat}
    (hi : i ∉ List.range' ii (min (ii + BS) n - ii)) :
    ∀ (L : List Nat) (C : Mat),
    (L.foldl (fun C kk =>
      tiles.foldl (fun C jj => tileBody A B BS n ii kk jj C) C) C).getD i []
      = C.getD i [] := by
  intro L
  induction L with
  | nil => intro C; rfl
  | cons a L ih =>
    intro C
    simp only [List.foldl_cons]
    rw [ih, foldJJ_row_not_mem _ _ _ _ _ _ hi]

end MM

namespace MM

theorem jjfold_entry (A B : Mat) {BS : Nat} (hBS : 0 < BS) (n ii kk : Nat)
    {i j : Nat} (hiI : i ∈ List.range' ii (min (ii + BS) n - ii)) (hjn : j < n) :
    ∀ (fuel s : Nat), n - s ≤ fuel → ∀ C : Mat, goodShape n C →
    (((rangeStep s n BS).foldl (fun C jj => tileBody A B BS n ii kk jj C) C).getD i []).getD j 0
      = (C.getD i []).getD j 0
        + (if s ≤ j then ((List.range' kk (min (kk + BS) n - kk)).map
            (fun k => (A.getD i []).getD k 0 * (B.getD k []).getD j 0)).sum else 0) := by
  intro fuel
  induction fuel with
  | zero =>
    intro s hs C _
    rw [rangeStep_eq, if_neg (by omega), if_neg (by omega : ¬ s ≤ j)]
    simp
  | succ fuel ih =>
    intro s hs C hC
    by_cases hlt : s < n
    · rw [rangeStep_eq, if_pos ⟨hBS, hlt⟩]
      simp only [List.foldl_cons]
      rw [ih (s + BS) (by omega) _ (tileBody_goodShape _ _ _ _ _ _ _ _ hC)]
      by_cases hcase : s ≤ j ∧ j < min (s + BS) n
      · have hjJ : j ∈ List.range' s (min (s + BS) n - s) := by
          rw [List.mem_range'_1]; omega
        rw [tileBody_entry _ _ _ _ _ _ _ _ hC hiI hjJ hjn]
        rw [if_neg (by omega : ¬ s + BS ≤ j), if_pos hcase.1]
        ring
      · have hjJ : j ∉ List.range' s (min (s + BS) n - s) := by
          rw [List.mem_range'_1]; omega
        rw [tileBody_col_not_mem _ _ _ _ _ _ _ _ hjJ]
        congr 1
        have hiff : (s + BS ≤ j) ↔ (s ≤ j) := by omega
        rw [if_congr hiff rfl rfl]
    · rw [rangeStep_eq, if_neg (by omega), if_neg (by omega : ¬ s ≤ j)]
      simp

theorem kkfold_entry (A B : Mat) {BS : Nat} (hBS : 0 < BS) (n ii : Nat)
    {i j : Nat} (hiI : i ∈ List.range' ii (min (ii + BS) n - ii)) (hjn : j < n) :
    ∀ (KK : List Nat) (C : Mat), goodShape n C →
    ((KK.foldl (fun C kk =>
        (rangeStep 0 n BS).foldl (fun C jj => tileBody A B BS n ii kk jj C) C) C).getD i []).getD j 0
      = (C.getD i []).getD j 0
        + (KK.map (fun kk => ((List.range' kk (min (kk + BS) n - kk)).map
            (fun k => (A.getD i []).getD k 0 * (B.getD k []).getD j 0)).sum)).sum := by
  intro KK
  induction KK with
  | nil => intro C _; simp
  | cons kk KK ih =>
    intro C hC
    simp only [List.foldl_cons, List.map_cons, List.sum_cons]
    rw [ih _ (foldJJ_goodShape _ _ _ _ _ _ _ _ hC)]
    rw [jjfold_entry A B hBS n ii kk hiI hjn n 0 (by omega) C hC]
    rw [if_pos (Nat.zero_le j)]
    ring

theorem tilesum (f : Nat → ℚ) {BS : Nat} (hBS : 0 < BS) (n : Nat) :
    ∀ (fuel s : Nat), n - s ≤ fuel →
    ((rangeStep s n BS).map (fun t =>
        ((List.range' t (min (t + BS) n - t)).map f).sum)).sum
      = ((List.range' s (n - s)).map f).sum := by
  intro fuel
  induction fuel with
  | zero =>
    intro s hs
    rw [rangeStep_eq, if_neg (by omega)]
    have h0 : n - s = 0 := by omega
    rw [h0]
    simp
  | succ fuel ih =>
    intro s hs
    by_cases hlt : s < n
    · rw [rangeStep_eq, if_pos ⟨hBS, hlt⟩]
      rw [List.map_cons, List.sum_cons, ih (s + BS) (by omega)]
      rcases le_or_lt (s + BS) n with hle | hgt
      · have hmin : min (s + BS) n = s + BS := min_eq_left hle
        rw [hmin]
        have happ := List.range'_append s BS (n - s - BS) 1
        rw [one_mul] at happ
        have h3 : n - s - BS + BS = n - s := by omega
        rw [h3] at happ
        have h4 : s + BS - s = BS := by omega
        have h5 : n - (s + BS) = n - s - BS := by omega
        rw [h4, h5, ← happ, List.map_append, List.sum_append]
      · have hmin : min (s + BS) n = n := min_eq_right (le_of_lt hgt)
        rw [hmin]
        have h2 : n - (s + BS) = 0 := by omega
        rw [h2]
        simp
    · rw [rangeStep_eq, if_neg (by omega)]
      have h0 : n - s = 0 := by omega
      rw [h0]
      simp

theorem foldII_goodShape (A B : Mat) (BS n : Nat) (tiles : List Nat) :
    ∀ (L : List Nat) (C : Mat), goodShape n C →
    goodShape n (L.foldl (fun C ii =>
      tiles.foldl (fun C kk =>
        tiles.foldl (fun C jj => tileBody A B BS n ii kk jj C) C) C) C) := by
  intro L
  induction L with
  | nil => intro C h; exact h
  | cons a L ih =>
    intro C h
    exact ih _ (foldKK_goodShape _ _ _ _ _ _ _ _ h)

theorem iifold_entry (A B : Mat) {BS : Nat} (hBS : 0 < BS) (n : Nat)
    {i j : Nat} (hin : i < n) (hjn : j < n) :
    ∀ (fuel s : Nat), n - s ≤ fuel → ∀ C : Mat, goodShape n C →
    (((rangeStep s n BS).foldl (fun C ii =>
        (rangeStep 0 n BS).foldl (fun C kk =>
          (rangeStep 0 n BS).foldl (fun C jj => tileBody A B BS n ii kk jj C) C) C) C).getD i []).getD j 0
      = (C.getD i []).getD j 0 + (if s ≤ i then dotSum A B n i j else 0) := by
  intro fuel
  induction fuel with
  | zero =>
    intro s hs C _
    rw [rangeStep_eq s n BS, if_neg (by omega), if_neg (by omega : ¬ s ≤ i)]
    simp
  | succ fuel ih =>
    intro s hs C hC
    by_cases hlt : s < n
    · rw [rangeStep_eq s n BS, if_pos ⟨hBS, hlt⟩]
      simp only [List.foldl_cons]
      rw [ih (s + BS) (by omega) _ (foldKK_goodShape _ _ _ _ _ _ _ _ hC)]
      by_cases hcase : s ≤ i ∧ i < min (s + BS) n
      · have hiI : i ∈ List.range' s (min (s + BS) n - s) := by
          rw [List.mem_range'_1]; omega
        rw [kkfold_entry A B hBS n s hiI hjn _ _ hC]
        rw [tilesum (fun k => (A.getD i []).getD k 0 * (B.getD k []).getD j 0) hBS n n 0 (by omega)]
        rw [if_neg (by omega : ¬ s + BS ≤ i), if_pos hcase.1]
        have hr : List.range' 0 (n - 0) = List.range n := by
          rw [Nat.sub_zero, ← List.range_eq_range']
        rw [hr]
        unfold dotSum
        ring
      · have hiI : i ∉ List.range' s (min (s + BS) n - s) := by
          rw [List.mem_range'_1]; omega
        rw [foldKK_row_not_mem _ _ _ _ _ _ hiI]
        congr 1
        have hiff : (s + BS ≤ i) ↔ (s ≤ i) := by omega
        rw [if_congr hiff rfl rfl]
    · rw [rangeStep_eq s n BS, if_neg (by omega), if_neg (by omega : ¬ s ≤ i)]
      simp

theorem matmul_blocked_eq_basic (A B : Mat) {BS : Int} (hBS : 1 ≤ BS) :
    matmul_blocked A B BS = some (matmul_basic A B) := by
  have hBSn : 0 < BS.toNat := by omega
  unfold matmul_blocked
  rw [if_neg (by omega : ¬ BS = 0)]
  simp only [if_neg (by omega : ¬ BS < 0), Option.some.injEq]
  have hC0 : goodShape A.length
      ((List.range A.length).map (fun _ => List.replicate A.length (0 : ℚ))) := by
    constructor
    · simp
    · intro i hi
      rw [getD_map_range _ _ hi]
      simp
  have hgood := foldII_goodShape A B BS.toNat A.length (rangeStep 0 A.length BS.toNat)
    (rangeStep 0 A.length BS.toNat)
    ((List.range A.length).map (fun _ => List.replicate A.length (0 : ℚ))) hC0
  apply List.ext_getElem
  · rw [hgood.1, matmul_basic_length]
  · intro i h1 h2
    have hi : i < A.length := by rw [← hgood.1]; exact h1
    rw [← List.getD_eq_getElem _ ([] : List ℚ) h1, ← List.getD_eq_getElem _ ([] : List ℚ) h2]
    apply List.ext_getElem
    · rw [hgood.2 i hi, matmul_basic_row_length A B hi]
    · intro j hj1 hj2
      have hj : j < A.length := by rw [← hgood.2 i hi]; exact hj1
      rw [← List.getD_eq_getElem _ (0 : ℚ) hj1, ← List.getD_eq_getElem _ (0 : ℚ) hj2]
      rw [matmul_basic_getD A B hi hj]
      rw [iifold_entry A B hBSn A.length hi hj A.length 0 (by omega) _ hC0]
      rw [if_pos (Nat.zero_le i)]
      rw [getD_map_range _ _ hi, getD_replicate_lt _ _ hj]
      ring

end MM

namespace MM

/-! ### The parallel kernel: merge fold and chunk invariant -/

theorem mergefold_length (start : Nat) :
    ∀ (rows : List (List ℚ)) (k : Nat) (C : Mat),
    ((rows.enumFrom k).foldl (fun C ow => C.set (start + ow.1) ow.2) C).length
      = C.length := by
  intro rows
  induction rows with
  | nil => intro k C; rfl
  | cons row rows ih =>
    intro k C
    simp only [List.enumFrom_cons, List.foldl_cons]
    rw [ih]
    simp

theorem mergefold_getD (start : Nat) :
    ∀ (rows : List (List ℚ)) (k : Nat) (C : Mat) (r : Nat),
    ((rows.enumFrom k).foldl (fun C ow => C.set (start + ow.1) ow.2) C).getD r []
      = if start + k ≤ r ∧ r < start + k + rows.length ∧ r < C.length
        then rows.getD (r - start - k) []
        else C.getD r [] := by
  intro rows
  induction rows with
  | nil =>
    intro k C r
    simp only [List.enumFrom_nil, List.foldl_nil, List.length_nil]
    rw [if_neg (by omega)]
  | cons row rows ih =>
    intro k C r
    simp only [List.enumFrom_cons, List.foldl_cons, List.length_cons]
    rw [ih (k + 1) (C.set (start + k) row) r]
    simp only [List.length_set]
    by_cases hrC : r < C.length
    · by_cases h1 : r = start + k
      · have hc : ¬ (start + (k + 1) ≤ r ∧ r < start + (k + 1) + rows.length
            ∧ r < C.length) := by omega
        rw [if_neg hc, h1, getD_set_self _ _ _ (by omega), if_pos (by omega)]
        have h0 : start + k - start - k = 0 := by omega
        rw [h0, List.getD_cons_zero]
      · by_cases h2 : start + k + 1 ≤ r ∧ r < start + k + 1 + rows.length
        · rw [if_pos (by omega), if_pos (by omega)]
          have h3 : r - start - k = (r - start - (k + 1)) + 1 := by omega
          rw [h3, List.getD_cons_succ]
        · rw [if_neg (by omega), getD_set_ne _ _ _ (by omega : start + k ≠ r),
            if_neg (by omega)]
    · rw [if_neg (by omega), if_neg (by omega)]
      have ha : (C.set (start + k) row).getD r [] = [] :=
        List.getD_eq_default _ _ (by rw [List.length_set]; omega)
      have hb : C.getD r [] = ([] : List ℚ) := List.getD_eq_default _ _ (by omega)
      rw [ha, hb]

theorem worker_chunk_fst (A_chunk B : Mat) (i0 : Nat) :
    (worker_chunk (A_chunk, B, i0)).1 = i0 := rfl

theorem worker_chunk_snd_length (A_chunk B : Mat) (i0 : Nat) :
    (worker_chunk (A_chunk, B, i0)).2.length = A_chunk.length := by
  unfold worker_chunk
  simp

theorem worker_chunk_row (A B : Mat) (hAB : A.length = B.length)
    (i0 len m : Nat) (hm : m < ((A.drop i0).take len).length)
    (him : i0 + m < A.length) :
    ((worker_chunk ((A.drop i0).take len, B, i0)).2).getD m []
      = (matmul_basic A B).getD (i0 + m) [] := by
  unfold worker_chunk
  simp only []
  rw [List.getD_eq_getElem _ _ (by simpa using hm), List.getElem_map,
    List.getElem_take, List.getElem_drop]
  unfold matmul_basic
  rw [getD_map_range _ _ him, List.getD_eq_getElem _ ([] : List ℚ) him, ← hAB]

/-- The state of the merge loop of `parallel_mul` after the first `t` of the
`p` tasks have been merged. -/
def parfold (A B : Mat) (pp t : Nat) : Mat :=
  ((List.range t).map (fun u =>
    ((A.drop (task_i0 A.length pp u)).take
        (task_i1 A.length pp u - task_i0 A.length pp u), B,
      task_i0 A.length pp u))).foldl (fun C task =>
    let r := worker_chunk task
    r.2.enum.foldl (fun C ow => C.set (r.1 + ow.1) ow.2) C)
  ((List.range A.length).map (fun _ => List.replicate A.length 0))

theorem parfold_succ (A B : Mat) (pp t : Nat) :
    parfold A B pp (t + 1)
      = (worker_chunk ((A.drop (task_i0 A.length pp t)).take
            (task_i1 A.length pp t - task_i0 A.length pp t), B,
          task_i0 A.length pp t)).2.enum.foldl
        (fun C ow => C.set ((worker_chunk ((A.drop (task_i0 A.length pp t)).take
            (task_i1 A.length pp t - task_i0 A.length pp t), B,
          task_i0 A.length pp t)).1 + ow.1) ow.2) (parfold A B pp t) := by
  unfold parfold
  rw [List.range_succ, List.map_append, List.foldl_append]
  rfl

theorem parfold_invariant (A B : Mat) (hAB : A.length = B.length) (pp : Nat)
    (hpp : 0 < pp) :
    ∀ t, t ≤ pp →
    (parfold A B pp t).length = A.length
    ∧ ∀ r, r < A.length →
      ((r < (if t = pp then A.length else t * (A.length / pp)) →
        (parfold A B pp t).getD r [] = (matmul_basic A B).getD r [])
      ∧ ((if t = pp then A.length else t * (A.length / pp)) ≤ r →
        (parfold A B pp t).getD r [] = List.replicate A.length 0)) := by
  intro t
  induction t with
  | zero =>
    intro _
    have h0 : parfold A B pp 0
        = (List.range A.length).map (fun _ => List.replicate A.length 0) := by
      simp [parfold]
    constructor
    · rw [h0]; simp
    · intro r hr
      constructor
      · intro hlt
        rw [if_neg (by omega)] at hlt
        exact absurd hlt (by omega)
      · intro _
        rw [h0, getD_map_range _ _ hr]
  | succ t ih =>
    intro ht
    obtain ⟨ihlen, ihrow⟩ := ih (by omega)
    have hcle : (A.length / pp) * pp ≤ A.length := Nat.div_mul_le_self _ _
    have hi0 : task_i0 A.length pp t = t * (A.length / pp) := rfl
    have hi0le : task_i0 A.length pp t ≤ A.length := by
      rw [hi0]
      calc t * (A.length / pp) ≤ pp * (A.length / pp) := by
            exact Nat.mul_le_mul_right _ (by omega)
        _ = (A.length / pp) * pp := by ring
        _ ≤ A.length := hcle
    have hi1le : task_i1 A.length pp t ≤ A.length := by
      unfold task_i1
      by_cases h : t = pp - 1
      · rw [if_pos h]
      · rw [if_neg h]
        calc (t + 1) * (A.length / pp) ≤ pp * (A.length / pp) := by
              exact Nat.mul_le_mul_right _ (by omega)
          _ = (A.length / pp) * pp := by ring
          _ ≤ A.length := hcle
    have hi01 : task_i0 A.length pp t ≤ task_i1 A.length pp t := by
      unfold task_i1
      by_cases h : t = pp - 1
      · rw [if_pos h]; exact hi0le
      · rw [if_neg h, hi0]
        exact Nat.mul_le_mul_right _ (by omega)
    have hchunklen : ((A.drop (task_i0 A.length pp t)).take
        (task_i1 A.length pp t - task_i0 A.length pp t)).length
        = task_i1 A.length pp t - task_i0 A.length pp t := by
      simp only [List.length_take, List.length_drop]
      omega
    have hcov : (if t + 1 = pp then A.length else (t + 1) * (A.length / pp))
        = task_i1 A.length pp t := by
      unfold task_i1
      by_cases h : t + 1 = pp
      · rw [if_pos h, if_pos (by omega)]
      · rw [if_neg h, if_neg (by omega)]
    rw [parfold_succ]
    set i0 := task_i0 A.length pp t with hi0def
    set i1 := task_i1 A.length pp t with hi1def
    have hwlen : (worker_chunk ((A.drop i0).take (i1 - i0), B, i0)).2.length
        = i1 - i0 := by
      rw [worker_chunk_snd_length, hchunklen]
    have henum : (worker_chunk ((A.drop i0).take (i1 - i0), B, i0)).2.enum
        = (worker_chunk ((A.drop i0).take (i1 - i0), B, i0)).2.enumFrom 0 := rfl
    constructor
    · rw [worker_chunk_fst, henum, mergefold_length, ihlen]
    · intro r hr
      rw [worker_chunk_fst, henum, mergefold_getD, hwlen, ihlen]
      constructor
      · intro hlt
        rw [hcov] at hlt
        by_cases hcase : i0 ≤ r
        · rw [if_pos (by omega)]
          have hm : r - i0 - 0 = r - i0 := by omega
          rw [hm]
          have := worker_chunk_row A B hAB i0 (i1 - i0) (r - i0)
            (by rw [hchunklen]; omega) (by omega)
          have harg : i0 + (r - i0) = r := by omega
          rw [harg] at this
          exact this
        · rw [if_neg (by omega)]
          exact (ihrow r hr).1 (by rw [if_neg (by omega)]; omega)
      · intro hge
        rw [hcov] at hge
        rw [if_neg (by omega)]
        exact (ihrow r hr).2 (by rw [if_neg (by omega)]; omega)

theorem parallel_mul_eq_basic (A B : Mat) {p : Int} (hp : 1 ≤ p)
    (hAB : A.length = B.length) :
    parallel_mul A B p = some (matmul_basic A B) := by
  have hpp : 0 < p.toNat := by omega
  unfold parallel_mul
  rw [if_neg (by omega : ¬ p ≤ 0)]
  show (some (parfold A B p.toNat p.toNat) : Option Mat) = some (matmul_basic A B)
  rw [Option.some.injEq]
  have key := parfold_invariant A B hAB p.toNat hpp p.toNat le_rfl
  apply List.ext_getElem
  · rw [key.1, matmul_basic_length]
  · intro r h1 h2
    have hr : r < A.length := by rw [← key.1]; exact h1
    rw [← List.getD_eq_getElem _ ([] : List ℚ) h1,
      ← List.getD_eq_getElem _ ([] : List ℚ) h2]
    exact (key.2 r hr).1 (by rw [if_pos rfl]; exact hr)

end MM

namespace MM

/-! ### Generator facts: shapes, value range, determinism -/

theorem rngNext_lt (s : Nat) : rngNext s < 2147483648 := by
  unfold rngNext
  exact Nat.mod_lt _ (by norm_num)

theorem randFloats_length : ∀ (c s : Nat), (randFloats c s).1.length = c := by
  intro c
  induction c with
  | zero => intro s; rfl
  | succ c ih =>
    intro s
    simp only [randFloats, List.length_cons, ih]

theorem randFloats_mem : ∀ (c s : Nat), ∀ x ∈ (randFloats c s).1, 0 ≤ x ∧ x < 1 := by
  intro c
  induction c with
  | zero => intro s x hx; cases hx
  | succ c ih =>
    intro s x hx
    simp only [randFloats, randFloat, List.mem_cons] at hx
    rcases hx with h | h
    · subst h
      constructor
      · positivity
      · rw [div_lt_one (by norm_num)]
        have := rngNext_lt s
        exact_mod_cast this
    · exact ih _ x h

theorem genRows_length : ∀ (r n s : Nat), (genRows r n s).1.length = r := by
  intro r
  induction r with
  | zero => intro n s; rfl
  | succ r ih =>
    intro n s
    simp only [genRows, List.length_cons, ih]

theorem genRows_row : ∀ (r n s : Nat), ∀ row ∈ (genRows r n s).1,
    row.length = n ∧ ∀ x ∈ row, 0 ≤ x ∧ x < 1 := by
  intro r
  induction r with
  | zero => intro n s row hrow; cases hrow
  | succ r ih =>
    intro n s row hrow
    simp only [genRows, List.mem_cons] at hrow
    rcases hrow with h | h
    · subst h
      exact ⟨randFloats_length _ _, randFloats_mem _ _⟩
    · exact ih _ _ row h

/-! ### Helpers for `Option`-monad loops (`spmm_csr_dense`) -/

theorem mapM_option_some {α β : Type} (P : β → Prop) (f : α → Option β) :
    ∀ (l : List α), (∀ a ∈ l, ∃ b, f a = some b ∧ P b) →
    ∃ ys, l.mapM f = some ys ∧ ys.length = l.length ∧ ∀ y ∈ ys, P y := by
  intro l
  induction l with
  | nil =>
    intro _
    exact ⟨[], by rw [List.mapM_nil]; rfl, rfl, by intro y hy; cases hy⟩
  | cons a l ih =>
    intro h
    obtain ⟨b, hb, hPb⟩ := h a (List.mem_cons_self _ _)
    obtain ⟨ys, hys, hlen, hmem⟩ := ih (fun x hx => h x (List.mem_cons_of_mem _ hx))
    refine ⟨b :: ys, ?_, by simp [hlen], ?_⟩
    · rw [List.mapM_cons, hb, hys]
      rfl
    · intro y hy
      rcases List.mem_cons.mp hy with h' | h'
      · subst h'; exact hPb
      · exact hmem y h'

theorem foldlM_option_some {α β : Type} (P : β → Prop) (f : β → α → Option β) :
    ∀ (l : List α) (init : β), P init →
    (∀ b a, P b → a ∈ l → ∃ b', f b a = some b' ∧ P b') →
    ∃ r, l.foldlM f init = some r ∧ P r := by
  intro l
  induction l with
  | nil =>
    intro init hP _
    exact ⟨init, by rw [List.foldlM_nil]; rfl, hP⟩
  | cons a l ih =>
    intro init hP hstep
    obtain ⟨b', hb', hPb'⟩ := hstep init a hP (List.mem_cons_self _ _)
    obtain ⟨r, hr, hPr⟩ := ih b' hPb'
      (fun b x hb hx => hstep b x hb (List.mem_cons_of_mem _ hx))
    refine ⟨r, ?_, hPr⟩
    rw [List.foldlM_cons, hb']
    exact hr

theorem spmm_csr_dense_empty (rp ci : List Nat) (v : List ℚ) :
    spmm_csr_dense rp ci v [] = none := rfl

theorem spmm_csr_dense_total (rp ci : List Nat) (v : List ℚ) (B0 : List ℚ)
    (Br : Mat)
    (hrp : ∀ x ∈ rp, x ≤ ci.length ∧ x ≤ v.length)
    (hci : ∀ c ∈ ci, c < (B0 :: Br).length)
    (hrows : ∀ row ∈ (B0 :: Br), B0.length ≤ row.length) :
    ∃ C, spmm_csr_dense rp ci v (B0 :: Br) = some C
      ∧ C.length = rp.length - 1 ∧ ∀ row ∈ C, row.length = B0.length := by
  have hB : ((B0 :: Br) : Mat)[0]? = some B0 := by simp
  have hall : ∀ i ∈ List.range (rp.length - 1), ∃ b,
      (do
        let s ← rp[i]?
        let e ← rp[i + 1]?
        (List.range' s (e - s)).foldlM (fun Ci p => do
          let k ← ci[p]?
          let aik ← v[p]?
          let Bk ← (B0 :: Br)[k]?
          (List.range B0.length).mapM (fun j => do
            let bkj ← Bk[j]?
            pure (Ci.getD j 0 + aik * bkj)))
          (List.replicate B0.length (0 : ℚ))) = some b
      ∧ b.length = B0.length := by
    intro i hi
    rw [List.mem_range] at hi
    have hi1 : i < rp.length := by omega
    have hi2 : i + 1 < rp.length := by omega
    rw [List.getElem?_eq_getElem hi1, List.getElem?_eq_getElem hi2]
    have he : rp[i + 1] ≤ ci.length ∧ rp[i + 1] ≤ v.length :=
      hrp _ (List.getElem_mem hi2)
    obtain ⟨row, hrow, hrowlen⟩ := foldlM_option_some
      (fun Ci => Ci.length = B0.length)
      (fun Ci p => do
        let k ← ci[p]?
        let aik ← v[p]?
        let Bk ← (B0 :: Br)[k]?
        (List.range B0.length).mapM (fun j => do
          let bkj ← Bk[j]?
          pure (Ci.getD j 0 + aik * bkj)))
      (List.range' rp[i] (rp[i + 1] - rp[i]))
      (List.replicate B0.length (0 : ℚ)) (by simp)
      (by
        intro Ci p hCi hp
        beta_reduce
        rw [List.mem_range'_1] at hp
        have hpc : p < ci.length := by omega
        have hpv : p < v.length := by omega
        rw [List.getElem?_eq_getElem hpc, List.getElem?_eq_getElem hpv]
        simp only [Option.bind_eq_bind, Option.some_bind]
        have hk : ci[p] < (B0 :: Br).length := hci _ (List.getElem_mem hpc)
        obtain ⟨Bk, hBkeq, hBklen⟩ : ∃ Bk, ((B0 :: Br) : Mat)[ci[p]]? = some Bk
            ∧ B0.length ≤ Bk.length := by
          rcases hx : ((B0 :: Br) : Mat)[ci[p]]? with _ | Bk
          · rw [List.getElem?_eq_none_iff] at hx
            omega
          · refine ⟨Bk, rfl, hrows Bk ?_⟩
            rw [List.getElem?_eq_some_iff] at hx
            obtain ⟨hlt, heq⟩ := hx
            rw [← heq]
            exact List.getElem_mem hlt
        rw [hBkeq]
        simp only [Option.bind_eq_bind, Option.some_bind]
        obtain ⟨ys, hys, hyslen, _⟩ := mapM_option_some (fun _ => True)
          (fun j => do
            let bkj ← Bk[j]?
            pure (Ci.getD j 0 + v[p] * bkj))
          (List.range B0.length)
          (by
            intro j hj
            beta_reduce
            rw [List.mem_range] at hj
            rw [List.getElem?_eq_getElem (by omega : j < Bk.length)]
            simp only [Option.bind_eq_bind, Option.some_bind]
            exact ⟨_, rfl, trivial⟩)
        exact ⟨ys, hys, by rw [hyslen, List.length_range]⟩)
    exact ⟨row, hrow, hrowlen⟩
  obtain ⟨C, hC, hlen, hmem⟩ := mapM_option_some
    (fun (row : List ℚ) => row.length = B0.length)
    _ (List.range (rp.length - 1)) hall
  refine ⟨C, ?_, by rw [hlen, List.length_range], hmem⟩
  show ((B0 :: Br) : Mat)[0]?.bind _ = some C
  rw [hB, Option.some_bind]
  exact hC

end MM

namespace MM

/-! ### Per-row column choice: length, sortedness, bounds -/

theorem rowCols_length (n : Int) (d : ℚ) (i s : Nat) :
    (rowColsState n d i s).1.length = min (rowK n d i) n.toNat := by
  unfold rowColsState
  by_cases h : rowK n d i ≤ n.toNat
  · rw [if_pos h, (List.perm_insertionSort _ _).length_eq]
    unfold pySample
    simp only [List.length_take, List.length_rotate, List.length_range]
  · rw [if_neg h, (List.perm_insertionSort _ _).length_eq]
    simp only [List.length_range]
    omega

theorem rowCols_nodup (n : Int) (d : ℚ) (i s : Nat) :
    (rowColsState n d i s).1.Nodup := by
  unfold rowColsState
  by_cases h : rowK n d i ≤ n.toNat
  · rw [if_pos h, (List.perm_insertionSort _ _).nodup_iff]
    unfold pySample
    exact ((List.take_sublist _ _).nodup
      (List.nodup_rotate.mpr (List.nodup_range _)))
  · rw [if_neg h, (List.perm_insertionSort _ _).nodup_iff]
    exact List.nodup_range _

theorem rowCols_sorted (n : Int) (d : ℚ) (i s : Nat) :
    List.Sorted (· < ·) (rowColsState n d i s).1 := by
  have hle : List.Sorted (· ≤ ·) (rowColsState n d i s).1 := by
    unfold rowColsState
    exact List.sorted_insertionSort _ _
  exact hle.lt_of_le (rowCols_nodup n d i s)

theorem rowCols_mem (n : Int) (d : ℚ) (i s : Nat) :
    ∀ c ∈ (rowColsState n d i s).1, c < n.toNat := by
  intro c hc
  unfold rowColsState at hc
  by_cases h : rowK n d i ≤ n.toNat
  · rw [if_pos h, (List.perm_insertionSort _ _).mem_iff] at hc
    unfold pySample at hc
    simp only at hc
    have hmem := List.Sublist.mem hc (List.take_sublist _ _)
    rw [List.mem_rotate, List.mem_range] at hmem
    exact hmem
  · rw [if_neg h, (List.perm_insertionSort _ _).mem_iff, List.mem_range] at hc
    exact hc

/-! ### The CSR construction invariant -/

/-- The entries of row `a` of the CSR structure: the slice
`col_idx[row_ptr[a] : row_ptr[a+1]]`. -/
def rowSlice (rp ci : List Nat) (a : Nat) : List Nat :=
  (ci.drop (rp.getD a 0)).take (rp.getD (a + 1) 0 - rp.getD a 0)

/-- Invariant of the row loop of `gen_sparse_csr` after `i` rows. -/
def csrInv (n : Int) (density : ℚ) (i : Nat)
    (rcv : List Nat × List Nat × List ℚ) : Prop :=
  rcv.1.length = i + 1
  ∧ rcv.1.getD 0 0 = 0
  ∧ List.Pairwise (· ≤ ·) rcv.1
  ∧ (∀ x ∈ rcv.1, x ≤ rcv.2.1.length)
  ∧ rcv.1.getD i 0 = rcv.2.1.length
  ∧ rcv.2.1.length = rcv.2.2.length
  ∧ rcv.2.1.length
      = ((List.range i).map (fun a => min (rowK n density a) n.toNat)).sum
  ∧ (∀ a < i, List.Sorted (· < ·) (rowSlice rcv.1 rcv.2.1 a)
      ∧ (∀ c ∈ rowSlice rcv.1 rcv.2.1 a, c < n.toNat)
      ∧ rcv.1.getD (a + 1) 0 - rcv.1.getD a 0 = min (rowK n density a) n.toNat)

theorem csrInv_init (n : Int) (d : ℚ) : csrInv n d 0 ([0], [], []) := by
  refine ⟨rfl, rfl, ?_, ?_, rfl, rfl, by simp, ?_⟩
  · simp
  · intro x hx
    simp only [List.mem_singleton] at hx
    omega
  · intro a ha
    omega

theorem csrInv_step (n : Int) (d : ℚ) (i : Nat)
    (st : (List Nat × List Nat × List ℚ) × Nat) (h : csrInv n d i st.1) :
    csrInv n d (i + 1) (gen_sparse_row n d st i).1 := by
  obtain ⟨⟨rp, ci, vs⟩, s⟩ := st
  obtain ⟨h1, h2, h3, h4, h5, h6, h7, h8⟩ := h
  simp only at h1 h2 h3 h4 h5 h6 h7 h8
  unfold gen_sparse_row
  simp only
  set cols := (rowColsState n d i s).1 with hcols
  refine ⟨?_, ?_, ?_, ?_, ?_, ?_, ?_, ?_⟩
  · simp [h1]
  · rw [List.getD_append _ _ _ 0 (by omega)]
    exact h2
  · rw [List.pairwise_append]
    refine ⟨h3, by simp, ?_⟩
    intro x hx b hb
    simp only [List.mem_singleton] at hb
    subst hb
    have := h4 x hx
    omega
  · intro x hx
    rw [List.length_append]
    rcases List.mem_append.mp hx with hx | hx
    · have := h4 x hx
      omega
    · simp only [List.mem_singleton] at hx
      omega
  · rw [List.getD_append_right _ _ _ _ (by omega)]
    have hz : i + 1 - rp.length = 0 := by omega
    rw [hz, List.getD_cons_zero, List.length_append]
  · rw [List.length_append, List.length_append, h6, randFloats_length]
  · rw [List.length_append, h7, List.range_succ, List.map_append, List.sum_append,
      rowCols_length]
    simp
  · intro a ha
    by_cases haa : a < i
    · have hga : (rp ++ [ci.length + cols.length]).getD a 0 = rp.getD a 0 :=
        List.getD_append _ _ _ a (by omega)
      have hga1 : (rp ++ [ci.length + cols.length]).getD (a + 1) 0
          = rp.getD (a + 1) 0 := List.getD_append _ _ _ (a + 1) (by omega)
      have hd : rp.getD a 0 ≤ ci.length := by
        rw [List.getD_eq_getElem _ _ (by omega : a < rp.length)]
        exact h4 _ (List.getElem_mem _)
      have he : rp.getD (a + 1) 0 ≤ ci.length := by
        rw [List.getD_eq_getElem _ _ (by omega : a + 1 < rp.length)]
        exact h4 _ (List.getElem_mem _)
      have hslice : rowSlice (rp ++ [ci.length + cols.length]) (ci ++ cols) a
          = rowSlice rp ci a := by
        unfold rowSlice
        rw [hga, hga1, List.drop_append_of_le_length hd,
          List.take_append_of_le_length (by rw [List.length_drop]; omega)]
      obtain ⟨hs, hm, hc⟩ := h8 a haa
      exact ⟨by rw [hslice]; exact hs, by rw [hslice]; exact hm,
        by rw [hga, hga1]; exact hc⟩
    · have haeq : a = i := by omega
      subst haeq
      have hga : (rp ++ [ci.length + cols.length]).getD a 0 = ci.length := by
        rw [List.getD_append _ _ _ a (by omega), h5]
      have hga1 : (rp ++ [ci.length + cols.length]).getD (a + 1) 0
          = ci.length + cols.length := by
        rw [List.getD_append_right _ _ _ _ (by omega)]
        have hz : a + 1 - rp.length = 0 := by omega
        rw [hz, List.getD_cons_zero]
      have hslice : rowSlice (rp ++ [ci.length + cols.length]) (ci ++ cols) a
          = cols := by
        unfold rowSlice
        rw [hga, hga1, List.drop_left]
        have hz : ci.length + cols.length - ci.length = cols.length := by omega
        rw [hz, List.take_length]
      refine ⟨by rw [hslice]; exact rowCols_sorted _ _ _ _,
        by rw [hslice]; exact rowCols_mem _ _ _ _, ?_⟩
      rw [hga, hga1, hcols, rowCols_length]
      omega

theorem csrInv_fold (n : Int) (d : ℚ) (seed : Nat) :
    ∀ i, csrInv n d i
      (((List.range i).foldl (gen_sparse_row n d) (([0], [], []), seed)).1) := by
  intro i
  induction i with
  | zero => exact csrInv_init n d
  | succ i ih =>
    rw [List.range_succ, List.foldl_append, List.foldl_cons, List.foldl_nil]
    exact csrInv_step n d i _ ih

theorem gen_sparse_csr_csrInv (n : Int) (d : ℚ) (seed : Nat)
    {rcv : List Nat × List Nat × List ℚ}
    (h : gen_sparse_csr n d seed = some rcv) : csrInv n d n.toNat rcv := by
  unfold gen_sparse_csr at h
  by_cases hn : n = 0
  · rw [if_pos hn] at h
    cases h
  · rw [if_neg hn, Option.some.injEq] at h
    rw [← h]
    exact csrInv_fold n d seed n.toNat

end MM

namespace MM

/-! ### Nonzero-count arithmetic for density in (0, 1] -/

theorem nnz_target_le (n : Int) (d : ℚ) (hn : 1 ≤ n) (hd1 : d ≤ 1) :
    nnz_target n d ≤ n.toNat * n.toNat := by
  unfold nnz_target
  have hnn : ((n.toNat : Int) : ℚ) = (n : ℚ) := by
    rw [Int.toNat_of_nonneg (by omega)]
  have hnn2 : (0 : ℚ) ≤ (n : ℚ) * (n : ℚ) := mul_self_nonneg _
  have h1 : (n : ℚ) * (n : ℚ) * d ≤ (n : ℚ) * (n : ℚ) := by
    calc (n : ℚ) * (n : ℚ) * d ≤ (n : ℚ) * (n : ℚ) * 1 :=
          mul_le_mul_of_nonneg_left hd1 hnn2
      _ = (n : ℚ) * (n : ℚ) := mul_one _
  have h2 : ⌊(n : ℚ) * (n : ℚ) * d⌋ ≤ ⌊(n : ℚ) * (n : ℚ)⌋ := Int.floor_le_floor h1
  have h3 : ⌊(n : ℚ) * (n : ℚ)⌋ = (n.toNat : Int) * (n.toNat : Int) := by
    rw [show ((n : ℚ) * (n : ℚ))
        = (((n.toNat : Int) * (n.toNat : Int) : Int) : ℚ) by push_cast [hnn]; ring]
    exact Int.floor_intCast _
  have h4 : ((n.toNat * n.toNat : Nat) : Int) = (n.toNat : Int) * (n.toNat : Int) := by
    push_cast
    ring
  omega

theorem rowK_le (n : Int) (d : ℚ) (hn : 1 ≤ n) (hd1 : d ≤ 1) (a : Nat) :
    rowK n d a ≤ n.toNat := by
  have hnn : 0 < n.toNat := by omega
  have hT := nnz_target_le n d hn hd1
  unfold rowK leftover per_row
  have hq : nnz_target n d / n.toNat ≤ n.toNat := by
    calc nnz_target n d / n.toNat ≤ (n.toNat * n.toNat) / n.toNat :=
          Nat.div_le_div_right hT
      _ = n.toNat := Nat.mul_div_cancel_left _ hnn
  by_cases hcase : nnz_target n d / n.toNat = n.toNat
  · have h1 : n.toNat * n.toNat ≤ nnz_target n d := by
      calc n.toNat * n.toNat = n.toNat * (nnz_target n d / n.toNat) := by rw [hcase]
        _ ≤ nnz_target n d := Nat.mul_div_le _ _
    have h2 : nnz_target n d - (nnz_target n d / n.toNat) * n.toNat = 0 := by
      have h3 : (nnz_target n d / n.toNat) * n.toNat = n.toNat * n.toNat := by
        rw [hcase]
      omega
    rw [h2, hcase]
    simp
  · have h1 : nnz_target n d / n.toNat < n.toNat := lt_of_le_of_ne hq hcase
    split <;> omega

theorem sum_ite_count (q L : Nat) :
    ∀ m, ((List.range m).map (fun a => q + (if a < L then 1 else 0))).sum
      = m * q + min L m := by
  intro m
  induction m with
  | zero => simp
  | succ m ih =>
    rw [List.range_succ, List.map_append, List.sum_append, ih]
    simp only [List.map_cons, List.map_nil, List.sum_cons, List.sum_nil]
    have hmq : (m + 1) * q = m * q + q := by ring
    by_cases h : m < L
    · rw [if_pos h]
      omega
    · rw [if_neg h]
      omega

theorem sum_rowK (n : Int) (d : ℚ) (hn : 1 ≤ n) (hd1 : d ≤ 1) :
    ((List.range n.toNat).map (fun a => min (rowK n d a) n.toNat)).sum
      = nnz_target n d := by
  have hnn : 0 < n.toNat := by omega
  have hmin : ∀ a ∈ List.range n.toNat,
      min (rowK n d a) n.toNat = rowK n d a := by
    intro a _
    exact min_eq_left (rowK_le n d hn hd1 a)
  rw [List.map_congr_left hmin]
  unfold rowK
  rw [sum_ite_count]
  unfold leftover per_row
  have hdm := Nat.div_add_mod (nnz_target n d) n.toNat
  have hml := Nat.mod_lt (nnz_target n d) hnn
  have hcomm : nnz_target n d / n.toNat * n.toNat
      = n.toNat * (nnz_target n d / n.toNat) := Nat.mul_comm _ _
  omega

end MM

namespace MM

/-! ### Task partition facts (mm_opt_par.py lines 28-33) -/

theorem parallel_tasks_count (A B : Mat) (p : Nat) :
    (parallel_tasks A B p).length = p := by
  simp [parallel_tasks]

theorem parallel_tasks_chunk (A B : Mat) (p : Nat) (t : Nat) (ht : t < p) :
    ((parallel_tasks A B p).getD t ([], [], 0)).1.length
      = if t = p - 1 then A.length - (p - 1) * (A.length / p)
        else A.length / p := by
  unfold parallel_tasks
  simp only
  rw [getD_map_range _ _ ht]
  simp only [List.length_take, List.length_drop]
  unfold task_i0 task_i1
  by_cases h : t = p - 1
  · rw [if_pos h, if_pos h, h]
    simp
  · rw [if_neg h, if_neg h]
    obtain ⟨c, hcdef⟩ : ∃ c, A.length / p = c := ⟨_, rfl⟩
    have hc : c * p ≤ A.length := by
      rw [← hcdef]
      exact Nat.div_mul_le_self A.length p
    rw [hcdef]
    have h1 : (t + 1) * c ≤ p * c := Nat.mul_le_mul_right _ (by omega)
    have h2 : p * c = c * p := Nat.mul_comm _ _
    have h3 : (t + 1) * c = t * c + c := by ring
    have e1 : (t + 1) * c - t * c = c := by omega
    rw [e1, min_eq_left (by omega)]

theorem task_cover_unique (n p : Nat) (hp : 0 < p) (r : Nat) (hr : r < n) :
    ∃! t, t < p ∧ task_i0 n p t ≤ r ∧ r < task_i1 n p t := by
  have hcp : (n / p) * p ≤ n := Nat.div_mul_le_self n p
  by_cases hc0 : n / p = 0
  · refine ⟨p - 1, ⟨by omega, ?_, ?_⟩, ?_⟩
    · unfold task_i0
      rw [hc0]
      simp
    · unfold task_i1
      rw [if_pos rfl]
      exact hr
    · intro y hy
      obtain ⟨hy1, hy2, hy3⟩ := hy
      by_contra hne
      unfold task_i1 at hy3
      rw [if_neg hne, hc0] at hy3
      simp at hy3
  · have hcpos : 0 < n / p := Nat.pos_of_ne_zero hc0
    by_cases hlast : (p - 1) * (n / p) ≤ r
    · refine ⟨p - 1, ⟨by omega, hlast, ?_⟩, ?_⟩
      · unfold task_i1
        rw [if_pos rfl]
        exact hr
      · intro y hy
        obtain ⟨hy1, hy2, hy3⟩ := hy
        by_contra hne
        unfold task_i1 at hy3
        rw [if_neg hne] at hy3
        have h1 : (y + 1) * (n / p) ≤ (p - 1) * (n / p) :=
          Nat.mul_le_mul_right _ (by omega)
        omega
    · push_neg at hlast
      have ht : r / (n / p) < p - 1 := by
        rw [Nat.div_lt_iff_lt_mul hcpos]
        exact hlast
      refine ⟨r / (n / p), ⟨lt_of_lt_of_le ht (by omega), ?_, ?_⟩, ?_⟩
      · unfold task_i0
        exact Nat.div_mul_le_self r (n / p)
      · unfold task_i1
        rw [if_neg (Nat.ne_of_lt ht)]
        have h1 := Nat.div_add_mod r (n / p)
        have h2 := Nat.mod_lt r hcpos
        have h3 : (r / (n / p) + 1) * (n / p)
            = (n / p) * (r / (n / p)) + (n / p) := by ring
        set c := n / p
        set q := r / c
        set m := r % c
        omega
      · intro y hy
        obtain ⟨hy1, hy2, hy3⟩ := hy
        by_cases hyl : y = p - 1
        · exfalso
          unfold task_i0 at hy2
          rw [hyl] at hy2
          omega
        · unfold task_i0 at hy2
          unfold task_i1 at hy3
          rw [if_neg hyl] at hy3
          exact (Nat.div_eq_of_lt_le hy2 hy3).symm

end MM

namespace MM

/-! ## The claims -/

/-- C1: for every pair of square matrices `A, B` of equal dimension `n > 0`
and every block size `BS` in `{1, n, n+1, 2n}`, the three dense kernels agree
element-wise over exact arithmetic: `matmul_transposed` and `matmul_blocked`
compute exactly `matmul_basic` (the Python tolerance 1e-9 accounts only for
floating-point summation order, which exact rationals eliminate). -/
theorem claim1_dense_kernels_agree (A B : Mat) (n BS : Nat) (hn : 0 < n)
    (hA : A.length = n) (hAr : ∀ row ∈ A, row.length = n)
    (hB : B.length = n) (hBr : ∀ row ∈ B, row.length = n)
    (hBS : BS = 1 ∨ BS = n ∨ BS = n + 1 ∨ BS = 2 * n) :
    matmul_transposed A B = matmul_basic A B
    ∧ matmul_blocked A B (BS : Int) = some (matmul_basic A B) := by
  have hBS1 : (1 : Int) ≤ (BS : Int) := by
    rcases hBS with h | h | h | h <;> subst h <;> omega
  exact ⟨matmul_transposed_eq_basic A B, matmul_blocked_eq_basic A B hBS1⟩

/-- Witness for C1 at `A = [[1,2],[3,4]]`, `B = [[5,6],[7,8]]`, `n = 2`,
`BS = 3 = n + 1`. -/
theorem claim1_dense_kernels_agree_witness :
    matmul_transposed [[1, 2], [3, 4]] [[5, 6], [7, 8]]
        = matmul_basic [[1, 2], [3, 4]] [[5, 6], [7, 8]]
    ∧ matmul_blocked [[1, 2], [3, 4]] [[5, 6], [7, 8]] ((3 : Nat) : Int)
        = some (matmul_basic [[1, 2], [3, 4]] [[5, 6], [7, 8]]) :=
  claim1_dense_kernels_agree [[1, 2], [3, 4]] [[5, 6], [7, 8]] 2 3
    (by norm_num) rfl (by decide) rfl (by decide)
    (Or.inr (Or.inr (Or.inl rfl)))

/-- C2: for square matrices of dimension `n` and any worker count `p` with
`1 ≤ p ≤ 2n`, `parallel_mul` computes exactly `matmul_basic` (including
`p > n`, where `n // p = 0` and all but the last worker get zero rows); the
first `p-1` workers receive `n // p` rows each, the last worker the
remainder `n - (p-1)*(n // p)`, and every row index is covered by exactly
one task. -/
theorem claim2_parallel_refines_basic (A B : Mat) (n : Nat) (p : Int)
    (hn : 0 < n) (hA : A.length = n) (hAr : ∀ row ∈ A, row.length = n)
    (hB : B.length = n) (hBr : ∀ row ∈ B, row.length = n)
    (hp1 : 1 ≤ p) (hp2 : p ≤ 2 * (n : Int)) :
    parallel_mul A B p = some (matmul_basic A B)
    ∧ (∀ t, t + 1 < p.toNat →
        ((parallel_tasks A B p.toNat).getD t ([], [], 0)).1.length = n / p.toNat)
    ∧ ((parallel_tasks A B p.toNat).getD (p.toNat - 1) ([], [], 0)).1.length
        = n - (p.toNat - 1) * (n / p.toNat)
    ∧ (∀ r < n, ∃! t, t < p.toNat
        ∧ task_i0 n p.toNat t ≤ r ∧ r < task_i1 n p.toNat t) := by
  have hpp : 0 < p.toNat := by omega
  refine ⟨parallel_mul_eq_basic A B hp1 (by rw [hA, hB]), ?_, ?_, ?_⟩
  · intro t htp
    rw [parallel_tasks_chunk A B p.toNat t (by omega), if_neg (by omega), hA]
  · rw [parallel_tasks_chunk A B p.toNat (p.toNat - 1) (by omega), if_pos rfl, hA]
  · intro r hr
    exact task_cover_unique n p.toNat hpp r hr

/-- Witness for C2 at `n = 2`, `p = 3` (the `p > n` edge case). -/
theorem claim2_parallel_refines_basic_witness :
    parallel_mul [[1, 2], [3, 4]] [[5, 6], [7, 8]] 3
        = some (matmul_basic [[1, 2], [3, 4]] [[5, 6], [7, 8]])
    ∧ (∀ t, t + 1 < (3 : Int).toNat →
        ((parallel_tasks [[1, 2], [3, 4]] [[5, 6], [7, 8]] (3 : Int).toNat).getD t
          ([], [], 0)).1.length = 2 / (3 : Int).toNat)
    ∧ ((parallel_tasks [[1, 2], [3, 4]] [[5, 6], [7, 8]] (3 : Int).toNat).getD
          ((3 : Int).toNat - 1) ([], [], 0)).1.length
        = 2 - ((3 : Int).toNat - 1) * (2 / (3 : Int).toNat)
    ∧ (∀ r < 2, ∃! t, t < (3 : Int).toNat
        ∧ task_i0 2 (3 : Int).toNat t ≤ r ∧ r < task_i1 2 (3 : Int).toNat t) :=
  claim2_parallel_refines_basic [[1, 2], [3, 4]] [[5, 6], [7, 8]] 2 3
    (by norm_num) rfl (by decide) rfl (by decide) (by norm_num) (by norm_num)

/-- C3: in the Stage-3 driver loop, when the worker count is 1 the recorded
speedup is exactly 1.0 and the size's baseline time is stored; when it is not
1, the speedup is the stored baseline divided by the elapsed time, and
defaults to 1.0 when no baseline exists for the size; efficiency is always
speedup divided by the worker count. -/
theorem claim3_speedup_efficiency (threads : Int) (T1 : Nat → Option ℚ)
    (n : Nat) (dt : ℚ) :
    (threads = 1 → (record_step threads T1 n dt).2.1 = 1
      ∧ (record_step threads T1 n dt).1 n = some dt)
    ∧ (threads ≠ 1 → ∀ base, T1 n = some base →
        (record_step threads T1 n dt).2.1 = base / dt)
    ∧ (threads ≠ 1 → T1 n = none → (record_step threads T1 n dt).2.1 = 1)
    ∧ (record_step threads T1 n dt).2.2
        = (record_step threads T1 n dt).2.1 / (threads : ℚ) := by
  refine ⟨?_, ?_, ?_, ?_⟩
  · intro h1
    subst h1
    simp [record_step]
  · intro hne base hbase
    simp [record_step, hne, hbase]
  · intro hne hnone
    simp [record_step, hne, hnone]
  · by_cases h : threads = 1 <;> simp [record_step, h]

/-- Witness for C3: worker counts 1 and 2, with and without a stored
baseline. -/
theorem claim3_speedup_efficiency_witness :
    (record_step 1 (fun _ => none) 4 7).2.1 = 1
    ∧ (record_step 1 (fun _ => none) 4 7).1 4 = some 7
    ∧ (record_step 2 (fun m => if m = 4 then some 10 else none) 4 5).2.1 = 10 / 5
    ∧ (record_step 2 (fun _ => (none : Option ℚ)) 4 5).2.1 = 1
    ∧ (record_step 2 (fun _ => (none : Option ℚ)) 4 5).2.2
        = (record_step 2 (fun _ => (none : Option ℚ)) 4 5).2.1 / ((2 : Int) : ℚ) := by
  refine ⟨((claim3_speedup_efficiency 1 (fun _ => none) 4 7).1 rfl).1,
    ((claim3_speedup_efficiency 1 (fun _ => none) 4 7).1 rfl).2,
    (claim3_speedup_efficiency 2 (fun m => if m = 4 then some 10 else none) 4 5).2.1
      (by norm_num) 10 (by simp),
    (claim3_speedup_efficiency 2 (fun _ => none) 4 5).2.2.1 (by norm_num) rfl,
    (claim3_speedup_efficiency 2 (fun _ => none) 4 5).2.2.2⟩

/-- C4 (the code at the failing input): the Stage-3 driver seeds both
`generate_dense` calls of one multiplication with the same module constant
`SEED`, so the two operands are identical — contradicting the claim that the
two operands always use related but distinct seeds and are never equal.  For
contrast, the Stage-2 driver does use `(BASE_SEED, BASE_SEED + 1)`. -/
theorem claim4_stage3_identical_operands :
    stage3_rep_seeds 0 = (SEED, SEED)
    ∧ stage3_rep_seeds 5 = stage3_rep_seeds 0
    ∧ (stage3_operands 2).1 = (stage3_operands 2).2
    ∧ (stage3_operands 2).1 = generate_dense 2
    ∧ run_once_seeds = (BASE_SEED, BASE_SEED + 1)
    ∧ run_once_seeds.1 ≠ run_once_seeds.2 :=
  ⟨rfl, rfl, rfl, rfl, rfl, by decide⟩

/-- C5: for `n ≥ 1`, density in `(0,1]` and any seed, the CSR triple returned
by `gen_sparse_csr` satisfies the CSR invariants: `row_ptr` has length `n+1`,
starts at 0, is monotonically non-decreasing, its last entry equals
`len col_idx = len vals`, and within every row the column indices lie in
`[0, n)` and are strictly ascending (hence duplicate-free). -/
theorem claim5_csr_invariants (n : Int) (d : ℚ) (seed : Nat)
    (rcv : List Nat × List Nat × List ℚ)
    (hn : 1 ≤ n) (hd0 : 0 < d) (hd1 : d ≤ 1)
    (h : gen_sparse_csr n d seed = some rcv) :
    rcv.1.length = n.toNat + 1
    ∧ rcv.1.getD 0 0 = 0
    ∧ List.Pairwise (· ≤ ·) rcv.1
    ∧ rcv.1.getD n.toNat 0 = rcv.2.1.length
    ∧ rcv.2.1.length = rcv.2.2.length
    ∧ ∀ a < n.toNat, List.Sorted (· < ·) (rowSlice rcv.1 rcv.2.1 a)
        ∧ ∀ c ∈ rowSlice rcv.1 rcv.2.1 a, c < n.toNat := by
  obtain ⟨h1, h2, h3, h4, h5, h6, h7, h8⟩ := gen_sparse_csr_csrInv n d seed h
  exact ⟨h1, h2, h3, h5, h6, fun a ha => ⟨(h8 a ha).1, (h8 a ha).2.1⟩⟩

/-- The CSR triple produced by `gen_sparse_csr 2 (1/2) 7` (it evaluates to
`([0, 1, 2], [0, 0], [642666333/2^31, 1486001571/2^31])`). -/
def csr5val : List Nat × List Nat × List ℚ :=
  ((List.range (2 : Int).toNat).foldl (gen_sparse_row 2 (1 / 2))
    (([0], [], []), 7)).1

/-- Witness for C5 at `n = 2`, `density = 1/2`, `seed = 7`. -/
theorem claim5_csr_invariants_witness :
    csr5val.1.length = (2 : Int).toNat + 1
    ∧ csr5val.1.getD 0 0 = 0
    ∧ List.Pairwise (· ≤ ·) csr5val.1
    ∧ csr5val.1.getD (2 : Int).toNat 0 = csr5val.2.1.length
    ∧ csr5val.2.1.length = csr5val.2.2.length
    ∧ ∀ a < (2 : Int).toNat, List.Sorted (· < ·) (rowSlice csr5val.1 csr5val.2.1 a)
        ∧ ∀ c ∈ rowSlice csr5val.1 csr5val.2.1 a, c < (2 : Int).toNat :=
  claim5_csr_invariants 2 (1 / 2) 7 csr5val (by norm_num) (by norm_num)
    (by norm_num)
    (by unfold gen_sparse_csr csr5val; rw [if_neg (by norm_num)])

/-- C6: for `n ≥ 1` and density in `(0,1]`, `gen_sparse_csr` produces exactly
`floor(n*n*density)` nonzeros in total (`col_idx` and `vals` both have that
length), row `a` receiving `per_row + 1` nonzeros if `a < leftover` and
`per_row` otherwise; the requested per-row count never exceeds `n` under
these densities, so the all-`n`-columns fallback is the identity clamp. -/
theorem claim6_nnz_distribution (n : Int) (d : ℚ) (seed : Nat)
    (rcv : List Nat × List Nat × List ℚ)
    (hn : 1 ≤ n) (hd0 : 0 < d) (hd1 : d ≤ 1)
    (h : gen_sparse_csr n d seed = some rcv) :
    rcv.2.1.length = nnz_target n d
    ∧ rcv.2.2.length = nnz_target n d
    ∧ (∀ a, rowK n d a ≤ n.toNat)
    ∧ (∀ a < n.toNat, rcv.1.getD (a + 1) 0 - rcv.1.getD a 0 = rowK n d a) := by
  obtain ⟨h1, h2, h3, h4, h5, h6, h7, h8⟩ := gen_sparse_csr_csrInv n d seed h
  have hlen : rcv.2.1.length = nnz_target n d := by
    rw [h7, sum_rowK n d hn hd1]
  refine ⟨hlen, by rw [← h6, hlen], fun a => rowK_le n d hn hd1 a, ?_⟩
  intro a ha
  rw [(h8 a ha).2.2, min_eq_left (rowK_le n d hn hd1 a)]

/-- The CSR triple produced by `gen_sparse_csr 3 (1/2) 5` (it evaluates to
`([0, 2, 3, 4], [0, 2, 0, 2], ...)`, four nonzeros in total). -/
def csr6val : List Nat × List Nat × List ℚ :=
  ((List.range (3 : Int).toNat).foldl (gen_sparse_row 3 (1 / 2))
    (([0], [], []), 5)).1

/-- Witness for C6 at `n = 3`, `density = 1/2`, `seed = 5`
(`nnz_target = floor(9/2) = 4`). -/
theorem claim6_nnz_distribution_witness :
    csr6val.2.1.length = nnz_target 3 (1 / 2)
    ∧ csr6val.2.2.length = nnz_target 3 (1 / 2)
    ∧ (∀ a, rowK 3 (1 / 2) a ≤ (3 : Int).toNat)
    ∧ (∀ a < (3 : Int).toNat,
        csr6val.1.getD (a + 1) 0 - csr6val.1.getD a 0 = rowK 3 (1 / 2) a) :=
  claim6_nnz_distribution 3 (1 / 2) 5 csr6val (by norm_num) (by norm_num)
    (by norm_num)
    (by unfold gen_sparse_csr csr6val; rw [if_neg (by norm_num)])

end MM

namespace MM

/-- C7 counterexample: the claim says the seeds passed to the generator
differ between repetitions of the same size, but the Stage-2 and Stage-3
drivers pass identical seeds in every repetition (repetitions 0 and 1 shown
here). -/
theorem claim7_seeds_constant_cex :
    stage2_rep_seeds 0 = stage2_rep_seeds 1
    ∧ stage3_rep_seeds 0 = stage3_rep_seeds 1
    ∧ bench_rep_operands 2 0 = (gen_matrix 2 BASE_SEED, gen_matrix 2 (BASE_SEED + 1)) :=
  ⟨rfl, rfl, rfl⟩

/-- C7 amended: every driver re-generates fresh matrices each repetition,
but only the Stage-1 baseline driver increments the seeds per repetition
(`BASE_SEED + r`, `BASE_SEED + 1 + r`, distinct across repetitions and
between the two operands); the Stage-2 and Stage-3 drivers reuse the same
seeds in every repetition. -/
theorem claim7_amended (r r' : Nat) (h : r ≠ r') :
    bench_rep_seeds r ≠ bench_rep_seeds r'
    ∧ (bench_rep_seeds r).1 ≠ (bench_rep_seeds r).2
    ∧ stage2_rep_seeds r = stage2_rep_seeds r'
    ∧ stage3_rep_seeds r = stage3_rep_seeds r' := by
  refine ⟨?_, ?_, rfl, rfl⟩
  · intro hc
    unfold bench_rep_seeds at hc
    rw [Prod.mk.injEq] at hc
    omega
  · unfold bench_rep_seeds
    simp only
    unfold BASE_SEED
    omega

/-- Witness for C7 (amended) at repetitions 0 and 1. -/
theorem claim7_amended_witness :
    bench_rep_seeds 0 ≠ bench_rep_seeds 1
    ∧ (bench_rep_seeds 0).1 ≠ (bench_rep_seeds 0).2
    ∧ stage2_rep_seeds 0 = stage2_rep_seeds 1
    ∧ stage3_rep_seeds 0 = stage3_rep_seeds 1 :=
  claim7_amended 0 1 (by norm_num)

/-- C8 counterexample: an invocation with the invalid size `-1` raises no
error at all — generation yields empty matrices and the multiplication
completes normally with an empty product — contradicting the claim that an
InvalidParameter error is raised before any computation starts. -/
theorem claim8_no_validation_cex :
    run_once_product (-1) "basic" 64 (5 / 100) = some [] := rfl

/-- C8 amended: the drivers perform no range validation before computation
and no InvalidParameter error exists.  For the dense algorithms a negative
or zero size silently yields empty generated matrices and the run completes
normally with an empty product.  For the sparse algorithm, size 0 raises
ZeroDivisionError at `nnz_target // n` inside `gen_sparse_csr`, during
generation, while a negative size completes generation with the empty CSR
triple `([0], [], [])` and then raises IndexError at `len(B[0])` inside
`spmm_csr_dense`.  A density outside `(0,1]` is accepted without error.  A
negative block size silently returns the zero matrix; block size `0` raises
ValueError inside `matmul_blocked` and a non-positive worker count raises
(ZeroDivisionError / ProcessPoolExecutor ValueError) inside `parallel_mul`,
both during the multiplication call, after generation.  Every error that
does occur surfaces inside a generation or multiplication call, never as an
up-front parameter check. -/
theorem claim8_amended (A B : Mat) (p BS n : Int) (d : ℚ) (seed : Nat)
    (hn : n < 0) (hp : p ≤ 0) (hBS : BS < 0) :
    gen_dense n seed = []
    ∧ gen_dense 0 seed = []
    ∧ run_once_product n "basic" 64 (5 / 100) = some []
    ∧ run_once_product n "transposed" 64 (5 / 100) = some []
    ∧ run_once_product n "blocked" 64 (5 / 100) = some []
    ∧ run_once_product 0 "basic" 64 (5 / 100) = some []
    ∧ gen_sparse_csr 0 d seed = none
    ∧ run_once_product 0 "sparse" 64 d = none
    ∧ gen_sparse_csr n d BASE_SEED = some ([0], [], [])
    ∧ run_once_product n "sparse" 64 d = none
    ∧ matmul_blocked A B 0 = none
    ∧ parallel_mul A B p = none
    ∧ matmul_blocked A B BS
        = some ((List.range A.length).map (fun _ => List.replicate A.length 0))
    ∧ (gen_sparse_csr 2 2 0).isSome = true := by
  have h0 : n.toNat = 0 := by omega
  have hgen : ∀ s, gen_dense n s = [] := by
    intro s
    unfold gen_dense
    rw [h0]
    rfl
  have hgen0 : ∀ s, gen_dense 0 s = [] := fun _ => rfl
  have hsparse_neg : gen_sparse_csr n d BASE_SEED = some ([0], [], []) := by
    unfold gen_sparse_csr
    rw [if_neg (by omega : ¬ n = 0), h0]
    rfl
  refine ⟨hgen seed, hgen0 seed, ?_, ?_, ?_, ?_, ?_, ?_, hsparse_neg,
    ?_, ?_, ?_, ?_, ?_⟩
  · unfold run_once_product
    rw [if_neg (by decide), if_neg (by decide), if_neg (by decide),
      hgen BASE_SEED, hgen (BASE_SEED + 1)]
    rfl
  · unfold run_once_product
    rw [if_neg (by decide), if_neg (by decide), if_pos rfl,
      hgen BASE_SEED, hgen (BASE_SEED + 1)]
    rfl
  · unfold run_once_product
    rw [if_neg (by decide), if_pos rfl, hgen BASE_SEED, hgen (BASE_SEED + 1)]
    rw [matmul_blocked_eq_basic ([] : Mat) ([] : Mat) (by norm_num : (1 : Int) ≤ 64)]
    rfl
  · unfold run_once_product
    rw [if_neg (by decide), if_neg (by decide), if_neg (by decide),
      hgen0 BASE_SEED, hgen0 (BASE_SEED + 1)]
    rfl
  · unfold gen_sparse_csr
    rw [if_pos rfl]
  · unfold run_once_product
    rw [if_pos rfl]
    have hz : gen_sparse_csr 0 d BASE_SEED = none := by
      unfold gen_sparse_csr
      rw [if_pos rfl]
    rw [hz]
  · unfold run_once_product
    rw [if_pos rfl, hsparse_neg]
    show spmm_csr_dense [0] [] [] (gen_dense n (BASE_SEED + 1)) = none
    rw [hgen]
    exact spmm_csr_dense_empty _ _ _
  · unfold matmul_blocked
    rw [if_pos rfl]
  · unfold parallel_mul
    rw [if_pos hp]
  · unfold matmul_blocked
    rw [if_neg (by omega : ¬ BS = 0)]
    simp only [hBS, if_true, List.foldl_nil]
  · unfold gen_sparse_csr
    rw [if_neg (by norm_num)]
    rfl

/-- Witness for C8 (amended) at size `-1` (and `0`), `p = 0`, `BS = -1`,
density `1/20`. -/
theorem claim8_amended_witness :
    gen_dense (-1) 9 = []
    ∧ gen_dense 0 9 = []
    ∧ run_once_product (-1) "basic" 64 (5 / 100) = some []
    ∧ run_once_product (-1) "transposed" 64 (5 / 100) = some []
    ∧ run_once_product (-1) "blocked" 64 (5 / 100) = some []
    ∧ run_once_product 0 "basic" 64 (5 / 100) = some []
    ∧ gen_sparse_csr 0 (1 / 20) 9 = none
    ∧ run_once_product 0 "sparse" 64 (1 / 20) = none
    ∧ gen_sparse_csr (-1) (1 / 20) BASE_SEED = some ([0], [], [])
    ∧ run_once_product (-1) "sparse" 64 (1 / 20) = none
    ∧ matmul_blocked [[1]] [[2]] 0 = none
    ∧ parallel_mul [[1]] [[2]] 0 = none
    ∧ matmul_blocked [[1]] [[2]] (-1)
        = some ((List.range ([[ (1 : ℚ) ]] : Mat).length).map
            (fun _ => List.replicate ([[ (1 : ℚ) ]] : Mat).length 0))
    ∧ (gen_sparse_csr 2 2 0).isSome = true :=
  claim8_amended [[1]] [[2]] 0 (-1) (-1) (1 / 20) 9 (by norm_num) (by norm_num)
    (by norm_num)

/-- C9: `gen_dense` (and the identical `gen_matrix`) is a pure function of
`(n, seed)`: a call neither reads nor advances the module-global random
state, so two successive calls with the same arguments return identical
n-by-n matrices, and every entry lies in `[0, 1)`. -/
theorem claim9_gen_dense_deterministic (g n seed : Nat) :
    (gen_dense_call g (n : Int) seed).1
        = (gen_dense_call (gen_dense_call g (n : Int) seed).2 (n : Int) seed).1
    ∧ (gen_dense_call g (n : Int) seed).2 = g
    ∧ gen_matrix (n : Int) seed = gen_dense (n : Int) seed
    ∧ (gen_dense (n : Int) seed).length = n
    ∧ ∀ row ∈ gen_dense (n : Int) seed,
        row.length = n ∧ ∀ x ∈ row, 0 ≤ x ∧ x < 1 := by
  refine ⟨rfl, rfl, rfl, ?_, ?_⟩
  · unfold gen_dense
    rw [genRows_length]
    simp
  · intro row hrow
    unfold gen_dense at hrow
    have h := genRows_row _ _ _ row hrow
    refine ⟨?_, h.2⟩
    rw [h.1]
    simp

/-- C10 counterexample: the claim says `spmm_csr_dense` is total whenever the
dense operand has at least one row, but with `row_ptr = [0,1]`,
`col_idx = [5]`, `vals = [1]` and the one-row dense matrix `[[1]]` the access
`B[5]` is out of range (a Python IndexError), modelled as `none`. -/
theorem claim10_spmm_partial_cex :
    spmm_csr_dense [0, 1] [5] [1] [[1]] = none := rfl

/-- C10 amended: `spmm_csr_dense` reads `len(B[0])` before anything else, so
it fails with an index error whenever `B` has zero rows — even when the
sparse operand has zero rows and zero nonzeros; and for `B` with at least
one row it is total with result shape `(len(row_ptr) - 1) x len(B[0])`
provided the CSR data is in range: every `row_ptr` entry is at most
`len(col_idx)` and `len(vals)`, every `col_idx` entry is a valid row index
of `B`, and every row of `B` has at least `len(B[0])` entries. -/
theorem claim10_amended (rp ci : List Nat) (v : List ℚ) (B0 : List ℚ) (Br : Mat)
    (hrp : ∀ x ∈ rp, x ≤ ci.length ∧ x ≤ v.length)
    (hci : ∀ c ∈ ci, c < (B0 :: Br).length)
    (hrows : ∀ row ∈ (B0 :: Br), B0.length ≤ row.length) :
    spmm_csr_dense rp ci v [] = none
    ∧ ∃ C, spmm_csr_dense rp ci v (B0 :: Br) = some C
        ∧ C.length = rp.length - 1 ∧ ∀ row ∈ C, row.length = B0.length :=
  ⟨spmm_csr_dense_empty rp ci v, spmm_csr_dense_total rp ci v B0 Br hrp hci hrows⟩

/-- Witness for C10 (amended) with `row_ptr = [0,1]`, `col_idx = [0]`,
`vals = [2]`, `B = [[3,4]]`. -/
theorem claim10_amended_witness :
    spmm_csr_dense [0, 1] [0] [2] [] = none
    ∧ ∃ C, spmm_csr_dense [0, 1] [0] [2] [[3, 4]] = some C
        ∧ C.length = ([0, 1] : List Nat).length - 1
        ∧ ∀ row ∈ C, row.length = ([3, 4] : List ℚ).length :=
  claim10_amended [0, 1] [0] [2] [3, 4] [] (by decide) (by decide)
    (by
      intro row hrow
      simp only [List.mem_singleton] at hrow
      rw [hrow])

end MM
